import Mathlib

/-!
Verification development for the sandboxed path-resolution / search engine of the
`mcp-server-file-search-tool` repository.

The Python sources are shallowly embedded for the POSIX platform (`os.name != "nt"`,
`os.sep = '/'`):

* Python strings become `PyStr := List Char`.
* The ambient operating system (symlink-expanding `Path.resolve`, `os.path.exists`,
  `os.path.isdir` / `islink` / `isfile`, `Path.expanduser`, `open` + `read`, and
  `re.compile` / `re.search`) is an explicit record of oracle functions `OSModel`;
  claims state which algebraic facts about the oracle they use (e.g. idempotence of
  `resolve`, which holds of the real `realpath`).
* Exceptions become `Except PyErr`, `None` becomes `Option.none`, and Python `dict`s
  become association lists with `dictInsert` insertion-order/overwrite semantics.
* The recursive directory walk of `list_file_paths` is embedded separately over an
  inductive filesystem tree with fuel (`none` = the loop did not terminate within
  the fuel), see the `Walk` section below.
-/

namespace FSTool

/-- Python strings, modelled as lists of characters. -/
abbrev PyStr := List Char

/-- Lift a Lean string literal into the model. -/
def str (s : String) : PyStr := s.data

/-- Python `s.rstrip("/")` (the POSIX branch used in `path_masker.py`). -/
def rstripSlash (s : PyStr) : PyStr := (s.reverse.dropWhile (fun c => c == '/')).reverse

/-- Python `s.rstrip("\\/")` as used in `path_startswith` (`path.py` line 35). -/
def rstripSeps (s : PyStr) : PyStr :=
  (s.reverse.dropWhile (fun c => c == '/' || c == '\\')).reverse

/-- Python `str.strip()` whitespace set (the characters `str.strip` removes). -/
def isPySpace (c : Char) : Bool :=
  c == ' ' || c == '\t' || c == '\n' || c == '\r' || c == '\x0b' || c == '\x0c'

/-- Python `s.strip()`. -/
def pyStrip (s : PyStr) : PyStr :=
  ((s.dropWhile isPySpace).reverse.dropWhile isPySpace).reverse

/-- Python `s.split(sep)` for a single-character separator. -/
def splitOnChar (c : Char) : PyStr → List PyStr
  | [] => [[]]
  | a :: rest =>
    match splitOnChar c rest with
    | [] => [[]]
    | h :: t => if a = c then [] :: h :: t else (a :: h) :: t

/-- Python `sep.join(parts)` for a single-character separator. -/
def joinChar (c : Char) : List PyStr → PyStr
  | [] => []
  | [x] => x
  | x :: y :: xs => x ++ c :: joinChar c (y :: xs)

/-- Python `s.replace(pat, rep, 1)`: replace the first occurrence of `pat`
(the empty pattern matches at position 0, as in Python). -/
def replaceFirst (pat rep : PyStr) : PyStr → PyStr
  | [] => if pat = [] then rep else []
  | a :: rest =>
    if pat.isPrefixOf (a :: rest) then rep ++ (a :: rest).drop pat.length
    else a :: replaceFirst pat rep rest

/-- Python `dict` assignment `d[k] = v` on an insertion-ordered association list:
an existing key keeps its position and gets the new value, a new key is appended. -/
def dictInsert {α β : Type} [DecidableEq α] (l : List (α × β)) (k : α) (v : β) :
    List (α × β) :=
  if l.any (fun kv => decide (kv.1 = k)) then l.map (fun kv => if kv.1 = k then (k, v) else kv)
  else l ++ [(k, v)]

/-- Python `dict.get(k, d)` on an insertion-ordered association list. -/
def lookupD {α β : Type} [DecidableEq α] (l : List (α × β)) (k : α) (d : β) : β :=
  match l.find? (fun kv => decide (kv.1 = k)) with
  | some kv => kv.2
  | none => d

/-- Python `dict[k]` as an `Option` (`none` = key absent). -/
def lookup? {α β : Type} [DecidableEq α] (l : List (α × β)) (k : α) : Option β :=
  match l.find? (fun kv => decide (kv.1 = k)) with
  | some kv => some kv.2
  | none => none

/-- Python `os.path.basename` on POSIX: everything after the last `'/'`. -/
def basenameOf (s : PyStr) : PyStr := (splitOnChar '/' s).getLastD []

/-- `is_hidden` (`path.py` lines 63–71, POSIX branch):
`os.path.basename(filepath).startswith(".")`. -/
def is_hidden (s : PyStr) : Bool := (basenameOf s).head? == some '.'

/-- `Path.is_absolute()` on POSIX. -/
def isAbsolute (s : PyStr) : Bool := s.head? == some '/'

/-- Outcome of `open(path).read()` on a path, as seen by the batch readers. -/
inductive ReadOutcome where
  | ok (content : PyStr)
  | notFound
  | permission
  | isADir (msg : PyStr)
  | otherErr (msg : PyStr)
deriving DecidableEq

/-- The operating-system oracle: every effectful primitive the embedded code calls.
`resolve` is `Path(s).resolve(strict=False)` (canonical, symlink-expanded),
`fsExists` is `os.path.exists` / `Path.exists`, `readFile` is `open(...).read()`
with `errors="replace"` decoding, `reValid p` says `re.compile(p)` succeeds and
`reSearch p s` models `re.compile(p).search(s) is not None`. -/
structure OSModel where
  resolve : PyStr → PyStr
  fsExists : PyStr → Bool
  isdir : PyStr → Bool
  islink : PyStr → Bool
  isfile : PyStr → Bool
  expanduser : PyStr → PyStr
  readFile : PyStr → ReadOutcome
  reValid : PyStr → Bool
  reSearch : PyStr → PyStr → Bool

/-- Python exception kinds raised by the embedded code.  `re.error` during
`re.compile` is surfaced by the tool as a `ValueError` whose message names the
offending argument; the spec calls this `InvalidPattern`, and we keep the
argument name to distinguish it from the other `ValueError` (empty base path). -/
inductive PyErr where
  | fileNotFound
  | permissionDenied
  | indexError
  | valueError
  | invalidPattern (which : PyStr)
deriving DecidableEq

deriving instance DecidableEq for Except

/-- `path_startswith` (`path.py` lines 13–40, POSIX: no lower-casing).
Both paths are resolved, trailing separators stripped, one separator appended,
then a plain string-prefix test.  (`.absolute()` after `.resolve()` is a no-op,
and the `except` clause is unreachable in the pure model.) -/
def pathStartswith (os : OSModel) (base target : PyStr) : Bool :=
  (rstripSeps (os.resolve base) ++ ['/']).isPrefixOf (rstripSeps (os.resolve target) ++ ['/'])

/-- `cleanup_path_list` (`path.py` lines 50–60): drop configured paths that do not
exist, canonicalize the rest. -/
def cleanup_path_list (os : OSModel) (l : List PyStr) : List PyStr :=
  (l.filter os.fsExists).map (fun p => os.resolve p)

/-- The state of a `FileSearchTool` instance after `__init__`
(`file_search.py` lines 13–18). -/
structure Tool where
  allowed_paths : List PyStr
  exclude_paths : List PyStr
  showHidden : Bool

/-- `FileSearchTool.__init__`: `_SHOW_HIDDEN = not hide_hidden`. -/
def mkTool (os : OSModel) (allowed exclude : List PyStr) (hide_hidden : Bool) : Tool :=
  ⟨cleanup_path_list os allowed, cleanup_path_list os exclude, !hide_hidden⟩

/-- Relative branch of `_resolve_path` (lines 31–37): try each allowed root in
order, `candidate` is the first `root / p` whose resolution exists on disk. -/
def firstExisting (os : OSModel) : List PyStr → PyStr → Option PyStr
  | [], _ => none
  | root :: rest, p =>
    let cand := os.resolve (root ++ '/' :: p)
    if os.fsExists cand then some cand else firstExisting os rest p

/-- `_resolve_path` body from the expand step onward (`file_search.py` lines 25–63).
`strict = true` raises (`.error`), `strict = false` returns `ok none` on failure;
`ok (some r)` is a successful resolution. -/
def resolveCore (os : OSModel) (t : Tool) (strict : Bool) (rel : PyStr) :
    Except PyErr (Option PyStr) :=
  let p := os.expanduser (pyStrip rel)
  let candidate := if isAbsolute p then some (os.resolve p) else firstExisting os t.allowed_paths p
  match candidate with
  | none => if strict then .error .fileNotFound else .ok none
  | some cand =>
    if !os.fsExists cand then (if strict then .error .fileNotFound else .ok none)
    else
      let real := os.resolve cand
      if !(t.allowed_paths.any fun root => pathStartswith os root real) then
        (if strict then .error .permissionDenied else .ok none)
      else if t.exclude_paths.any (fun ex => pathStartswith os ex real) then
        (if strict then .error .permissionDenied else .ok none)
      else if !t.showHidden && is_hidden real then
        (if strict then .error .permissionDenied else .ok none)
      else .ok (some real)

/-- `FileSearchTool._resolve_path` (`file_search.py` lines 21–63): empty/`.`/`./`
input defaults to the first allowed root (`allowed_paths[0]`, an `IndexError`
when the list is empty), then `resolveCore`. -/
def resolvePathE (os : OSModel) (t : Tool) (strict : Bool) (rel_path : PyStr) :
    Except PyErr (Option PyStr) :=
  if rel_path = str "" ∨ rel_path = str "." ∨ rel_path = str "./" then
    match t.allowed_paths with
    | [] => .error .indexError
    | r :: _ => resolveCore os t strict r
  else resolveCore os t strict rel_path

/-- `is_allowed_path` (`file_search.py` lines 75–84): `if not path: return False`,
then the hidden check, then `_resolve_path(strict=True)` with `PermissionError` and
`FileNotFoundError` caught.  The `IndexError` of the `allowed_paths[0]` default
(empty allowed list) is not caught and propagates. -/
def is_allowed_pathE (os : OSModel) (t : Tool) (path : PyStr) : Except PyErr Bool :=
  if path = [] then .ok false
  else if !t.showHidden && is_hidden path then .ok false
  else
    match resolvePathE os t true path with
    | .ok _ => .ok true
    | .error .permissionDenied => .ok false
    | .error .fileNotFound => .ok false
    | .error e => .error e

/-- `is_allowed_path` applied to the `Optional[str]` result of
`_resolve_path(strict=False)` (Python's `if not path` is true for `None` and `""`). -/
def is_allowed_optE (os : OSModel) (t : Tool) : Option PyStr → Except PyErr Bool
  | none => .ok false
  | some p => is_allowed_pathE os t p

/-- The boolean value of `is_allowed_path` in the configurations where it cannot
raise (at least one allowed root); used to state the per-item outcomes. -/
def is_allowed_total (os : OSModel) (t : Tool) (p : PyStr) : Bool :=
  match is_allowed_pathE os t p with
  | .ok b => b
  | .error _ => false

/-- `_sub_get_path_type` (`file_search.py` lines 97–113): existence first (so a
non-existent path reports `not found` without any sandbox check), then the sandbox
check, then `isdir` / `islink` / `isfile` in that order. -/
def sub_get_path_type (os : OSModel) (t : Tool) (path : PyStr) : Except PyErr PyStr :=
  if !os.fsExists path then .ok (str "not found")
  else
    match is_allowed_pathE os t path with
    | .error e => .error e
    | .ok a =>
      if !a then .ok (str "[Permission Denied]")
      else if os.isdir path then .ok (str "directory")
      else if os.islink path then .ok (str "symbolic link")
      else if os.isfile path then .ok (str "file")
      else .ok (str "unknown")

/-- `get_path_type` (`file_search.py` lines 87–115): one `(path, type)` pair per
input, in input order; an uncaught exception aborts the whole list comprehension. -/
def get_path_type (os : OSModel) (t : Tool) : List PyStr → Except PyErr (List (PyStr × PyStr))
  | [] => .ok []
  | p :: rest =>
    match sub_get_path_type os t p with
    | .error e => .error e
    | .ok ty =>
      match get_path_type os t rest with
      | .error e => .error e
      | .ok l => .ok ((p, ty) :: l)

/-- The pointwise classification `get_path_type` computes when it cannot raise. -/
def classifyTotal (os : OSModel) (t : Tool) (path : PyStr) : PyStr :=
  if !os.fsExists path then str "not found"
  else if !is_allowed_total os t path then str "[Permission Denied]"
  else if os.isdir path then str "directory"
  else if os.islink path then str "symbolic link"
  else if os.isfile path then str "file"
  else str "unknown"

/-- Helper loop of `pyReadlines` (`acc` holds the current line reversed). -/
def pyReadlinesGo (acc : PyStr) : PyStr → List PyStr
  | [] => if acc = [] then [] else [acc.reverse]
  | c :: rest =>
    if c = '\n' then (acc.reverse ++ ['\n']) :: pyReadlinesGo [] rest
    else pyReadlinesGo (c :: acc) rest

/-- Python `file.readlines()`: split after each newline, keeping the terminators,
with no trailing empty entry. -/
def pyReadlines (s : PyStr) : List PyStr := pyReadlinesGo [] s

/-- One context block of `search_file_contents` (lines 455–457):
`"".join(lines[max(0, idx - context_lines) : min(len(lines), idx + ctx + 1)])`
(truncated `Nat` subtraction `idx - ctx` is Python's `max(0, idx - ctx)`). -/
def blockAt (lines : List PyStr) (ctx idx : Nat) : PyStr :=
  List.join ((lines.take (min lines.length (idx + ctx + 1))).drop (idx - ctx))

/-- The matching loop of `search_file_contents` (lines 453–458) over the
enumerated lines: each matching line appends its own context block. -/
def contextBlocksGo (mt : PyStr → Bool) (lines : List PyStr) (ctx : Nat) :
    List (Nat × PyStr) → List PyStr
  | [] => []
  | (idx, line) :: rest =>
    if mt line then blockAt lines ctx idx :: contextBlocksGo mt lines ctx rest
    else contextBlocksGo mt lines ctx rest

/-- All context blocks of one file: the loop over `enumerate(lines)`. -/
def contextBlocks (mt : PyStr → Bool) (lines : List PyStr) (ctx : Nat) : List PyStr :=
  contextBlocksGo mt lines ctx lines.enum

/-- `read_files` (`file_search.py` lines 348–388): the results dict is keyed by the
output of `_resolve_path(strict=False)` — which is `None` for unresolvable inputs —
and per-file read failures are stored as placeholder strings.  `IsADirectoryError`
is caught by the generic `except Exception as e` branch with the exception text. -/
def read_files (os : OSModel) (t : Tool) : List PyStr → List (Option PyStr × PyStr) →
    Except PyErr (List (Option PyStr × PyStr))
  | [], results => .ok results
  | p :: rest, results =>
    match resolvePathE os t false p with
    | .error e => .error e
    | .ok rp =>
      match is_allowed_optE os t rp with
      | .error e => .error e
      | .ok a =>
        if !a then read_files os t rest (dictInsert results rp (str "[Permission denied]"))
        else
          match rp with
          | none => read_files os t rest (dictInsert results none (str "[Permission denied]"))
          | some r =>
            match os.readFile r with
            | .ok c => read_files os t rest (dictInsert results (some r) c)
            | .notFound =>
              read_files os t rest (dictInsert results (some r) (str "[File not found]"))
            | .permission =>
              read_files os t rest (dictInsert results (some r) (str "[Permission denied]"))
            | .isADir msg =>
              read_files os t rest (dictInsert results (some r) (str "[Error: " ++ msg ++ str "]"))
            | .otherErr msg =>
              read_files os t rest (dictInsert results (some r) (str "[Error: " ++ msg ++ str "]"))

/-- The key under which `read_files` / `search_file_contents` store an input's
result: the `_resolve_path(strict=False)` output (total in the configurations
where resolution cannot raise). -/
def resolveKey (os : OSModel) (t : Tool) (p : PyStr) : Option PyStr :=
  match resolvePathE os t false p with
  | .ok rp => rp
  | .error _ => none

/-- The value `read_files` stores for a given resolved key. -/
def readOutcomeFor (os : OSModel) (t : Tool) : Option PyStr → PyStr
  | none => str "[Permission denied]"
  | some r =>
    if !is_allowed_total os t r then str "[Permission denied]"
    else match os.readFile r with
      | .ok c => c
      | .notFound => str "[File not found]"
      | .permission => str "[Permission denied]"
      | .isADir msg => str "[Error: " ++ msg ++ str "]"
      | .otherErr msg => str "[Error: " ++ msg ++ str "]"

/-- A value in the `search_file_contents` results dict: an error placeholder string
or the list of matching context blocks. -/
inductive SCVal where
  | errStr (s : PyStr)
  | blocks (bs : List PyStr)
deriving DecidableEq

/-- Loop of `search_file_contents` (`file_search.py` lines 427–474).  `tick n`
models the wall-clock condition `elapsed > time_limit` at the check before the
`n`-th file; a file with no matching lines is omitted from the results. -/
def search_file_contents_go (os : OSModel) (t : Tool) (pats : List PyStr) (ctx : Nat)
    (timeLimit : Int) (tick : Nat → Bool) :
    List PyStr → Nat → List (Option PyStr × SCVal) →
    Except PyErr (List (Option PyStr × SCVal) × Bool)
  | [], _, results => .ok (results, false)
  | p :: rest, n, results =>
    if timeLimit ≥ 0 ∧ tick n then .ok (results, true)
    else
      match resolvePathE os t false p with
      | .error e => .error e
      | .ok rp =>
        match is_allowed_optE os t rp with
        | .error e => .error e
        | .ok a =>
          if !a then
            search_file_contents_go os t pats ctx timeLimit tick rest (n + 1)
              (dictInsert results rp (.errStr (str "[Permission denied]")))
          else
            match rp with
            | none =>
              search_file_contents_go os t pats ctx timeLimit tick rest (n + 1)
                (dictInsert results none (.errStr (str "[Permission denied]")))
            | some r =>
              match os.readFile r with
              | .ok content =>
                let ms := contextBlocks
                  (fun line => pats.any fun pt => os.reSearch pt line) (pyReadlines content) ctx
                if ms ≠ [] then
                  search_file_contents_go os t pats ctx timeLimit tick rest (n + 1)
                    (dictInsert results (some r) (.blocks ms))
                else search_file_contents_go os t pats ctx timeLimit tick rest (n + 1) results
              | .notFound =>
                search_file_contents_go os t pats ctx timeLimit tick rest (n + 1)
                  (dictInsert results (some r) (.errStr (str "[File not found]")))
              | .permission =>
                search_file_contents_go os t pats ctx timeLimit tick rest (n + 1)
                  (dictInsert results (some r) (.errStr (str "[Permission denied]")))
              | .isADir _ =>
                search_file_contents_go os t pats ctx timeLimit tick rest (n + 1)
                  (dictInsert results (some r)
                    (.errStr (str "[Error: Is a directory. Please provide a file path.]")))
              | .otherErr msg =>
                search_file_contents_go os t pats ctx timeLimit tick rest (n + 1)
                  (dictInsert results (some r) (.errStr (str "[Error: " ++ msg ++ str "]")))

/-- `search_file_contents` (`file_search.py` lines 391–484): include patterns are
compiled up front (an invalid one fails the whole call), then the per-file loop. -/
def search_file_contents (os : OSModel) (t : Tool) (paths pats : List PyStr) (ctx : Nat)
    (timeLimit : Int) (tick : Nat → Bool) :
    Except PyErr (List (Option PyStr × SCVal) × Bool) :=
  if !(pats.all os.reValid) then .error (.invalidPattern (str "regex_pattern"))
  else search_file_contents_go os t pats ctx timeLimit tick paths 0 []

/-- The value `search_file_contents` stores for a given resolved key
(`none` = no entry: the file was readable but had no matching lines). -/
def scOutcomeFor (os : OSModel) (t : Tool) (pats : List PyStr) (ctx : Nat) :
    Option PyStr → Option SCVal
  | none => some (.errStr (str "[Permission denied]"))
  | some r =>
    if !is_allowed_total os t r then some (.errStr (str "[Permission denied]"))
    else match os.readFile r with
      | .ok content =>
        let ms := contextBlocks
          (fun line => pats.any fun pt => os.reSearch pt line) (pyReadlines content) ctx
        if ms ≠ [] then some (.blocks ms) else none
      | .notFound => some (.errStr (str "[File not found]"))
      | .permission => some (.errStr (str "[Permission denied]"))
      | .isADir _ => some (.errStr (str "[Error: Is a directory. Please provide a file path.]"))
      | .otherErr msg => some (.errStr (str "[Error: " ++ msg ++ str "]"))

/-- Filesystem operations observable during the validation phase of
`search_file_name`. -/
inductive FsOp where
  | existsChk (p : PyStr)
  | resolveRoot (p : PyStr)
deriving DecidableEq

/-- The validation phase of `search_file_name` (`file_search.py` lines 263–287),
in source order, together with the trace of filesystem operations it performs:
the empty-base check (`ValueError`), the `os.path.exists(base_path)` stat
(`FileNotFoundError` when absent), include-pattern compilation, exclude-pattern
compilation (each raising the `InvalidPattern` `ValueError` on `re.error`), then
`_resolve_path(base_path)` whose filesystem work is represented by the
`resolveRoot` marker.  The directory walk starts only after this phase returns a
root. -/
def search_file_name_check (os : OSModel) (t : Tool) (pats : List PyStr)
    (expats : Option (List PyStr)) (basePath : Option PyStr) :
    List FsOp × Except PyErr PyStr :=
  match basePath with
  | none => ([], .error .valueError)
  | some bp =>
    if bp = [] then ([], .error .valueError)
    else if !os.fsExists bp then ([.existsChk bp], .error .fileNotFound)
    else if !(pats.all os.reValid) then
      ([.existsChk bp], .error (.invalidPattern (str "regex_pattern")))
    else if !((expats.getD []).all os.reValid) then
      ([.existsChk bp], .error (.invalidPattern (str "exclude_regex_patterns")))
    else
      match resolvePathE os t true bp with
      | .error e => ([.existsChk bp, .resolveRoot bp], .error e)
      | .ok (some root) => ([.existsChk bp, .resolveRoot bp], .ok root)
      | .ok none => ([.existsChk bp, .resolveRoot bp], .error .fileNotFound)

/-! ### PathMasker (`path_masker.py`) -/

/-- Masking mode: `Literal["prefix", "segment"]`; `pfx` stands for the source's
`"prefix"` and `seg` for `"segment"` (the source words cannot be used as Lean names
here). -/
inductive MaskMode where
  | pfx
  | seg
deriving DecidableEq

/-- Decimal digit characters of a natural number, i.e. Python `f"{idx}"`. -/
def natChars (n : Nat) : PyStr :=
  if n = 0 then ['0'] else ((Nat.digits 10 n).reverse.map Nat.digitChar)

/-- The opaque token `f"[{mask_token}{idx}]"`. -/
def maskTok (tokBase : PyStr) (idx : Nat) : PyStr := '[' :: (tokBase ++ natChars idx ++ [']'])

/-- The `full_path` local of `create_masked_map` in prefix mode, which becomes the
`masked_map` key: `str(Path(sensitive).resolve(strict=False)).rstrip("/")`. -/
def keyOf (os : OSModel) (s : PyStr) : PyStr := rstripSlash (os.resolve s)

/-- Loop body of `create_masked_map` (`path_masker.py` lines 13–21), POSIX branch
(`full_path = keyOf os s`).  `Path(full_path).name` of the already-stripped canonical
path is its basename. -/
def createGo (os : OSModel) (tokBase : PyStr) (mode : MaskMode) :
    List PyStr → Nat → List (PyStr × PyStr) → List (PyStr × PyStr) →
    (List (PyStr × PyStr)) × (List (PyStr × PyStr))
  | [], _, mm, rm => (mm, rm)
  | s :: rest, idx, mm, rm =>
    let masked := maskTok tokBase idx
    let key := match mode with | .pfx => keyOf os s | .seg => basenameOf (keyOf os s)
    createGo os tokBase mode rest (idx + 1) (dictInsert mm key masked) (dictInsert rm masked key)

/-- `create_masked_map` (`path_masker.py` lines 7–22): returns
`(masked_map, reversed_map)` as insertion-ordered association lists. -/
def create_masked_map (os : OSModel) (look_for : List PyStr) (tokBase : PyStr)
    (mode : MaskMode) : (List (PyStr × PyStr)) × (List (PyStr × PyStr)) :=
  createGo os tokBase mode look_for 0 [] []

/-- State of a `PathMasker` instance. -/
structure Masker where
  enabled : Bool
  mode : MaskMode
  masked_map : List (PyStr × PyStr)
  reversed_map : List (PyStr × PyStr)

/-- `PathMasker.__init__` (`path_masker.py` lines 26–35). -/
def mkMasker (os : OSModel) (look_for : List PyStr) (tokBase : PyStr) (mode : MaskMode)
    (enabled : Bool) : Masker :=
  ⟨enabled, mode, (create_masked_map os look_for tokBase mode).1,
    (create_masked_map os look_for tokBase mode).2⟩

/-- The comparison `key=lambda x: -len(x[0])` of `mask_path`: key length descending. -/
def lenGE (a b : PyStr × PyStr) : Prop := b.1.length ≤ a.1.length

instance : DecidableRel lenGE := fun a b => Nat.decLe b.1.length a.1.length

instance : IsTotal (PyStr × PyStr) lenGE := ⟨fun a b => le_total b.1.length a.1.length⟩

instance : IsTrans (PyStr × PyStr) lenGE := ⟨fun _ _ _ h1 h2 => le_trans h2 h1⟩

/-- `PathMasker.mask_path` (`path_masker.py` lines 37–55), POSIX branch.
Python's `sorted` is a stable sort; it is modelled by `List.insertionSort`, which
agrees with it on the sorted order of key lengths (the theorems below depend only on
membership and on the descending-length order). -/
def mask_path (os : OSModel) (m : Masker) (path : PyStr) : PyStr :=
  if !m.enabled then path
  else
    let abs_path := rstripSlash (os.resolve path)
    match m.mode with
    | .pfx =>
      match (List.insertionSort lenGE m.masked_map).find?
          (fun kv => pathStartswith os kv.1 abs_path) with
      | some kv => replaceFirst kv.1 kv.2 abs_path
      | none => abs_path
    | .seg =>
      joinChar '/' ((splitOnChar '/' abs_path).map (fun part => lookupD m.masked_map part part))

/-- `PathMasker.unmask_path` (`path_masker.py` lines 57–71): iterates `reversed_map`
in insertion order, no canonicalization of the input. -/
def unmask_path (os : OSModel) (m : Masker) (path : PyStr) : PyStr :=
  if !m.enabled then path
  else
    match m.mode with
    | .pfx =>
      match m.reversed_map.find? (fun kv => pathStartswith os kv.1 path) with
      | some kv => replaceFirst kv.1 kv.2 path
      | none => path
    | .seg =>
      joinChar '/' ((splitOnChar '/' path).map (fun part => lookupD m.reversed_map part part))

/-! Witness fixtures: a tiny concrete filesystem (no symlinks, so `resolve = id`)
with allowed root `/r`, an excluded subtree `/r/sec`, and a file `/r/a.txt`. -/

/-- Existence oracle of the witness filesystem. -/
def wExists (s : PyStr) : Bool := s == str "/r" || s == str "/r/a.txt" || s == str "/r/sec"

/-- Witness operating-system oracle. -/
def wOS : OSModel :=
  ⟨id, wExists, fun s => s == str "/r" || s == str "/r/sec", fun _ => false,
    fun s => s == str "/r/a.txt", id, fun _ => .notFound, fun _ => true, fun _ _ => false⟩

/-- Witness tool instance: allowed `["/r"]`, excluded `["/r/sec"]`, hidden files hidden. -/
def wTool : Tool := mkTool wOS [str "/r"] [str "/r/sec"] true

/-- Witness `resolve` for the masker claims: cwd is `/cwd`, no symlinks; absolute
inputs are returned unchanged, relative inputs are resolved against the cwd. -/
def wResolve (s : PyStr) : PyStr := if isAbsolute s then s else str "/cwd" ++ '/' :: s

/-- Witness operating-system oracle for the masker claims. -/
def wmOS : OSModel :=
  ⟨wResolve, fun _ => true, fun _ => true, fun _ => false, fun _ => false, id,
    fun _ => .notFound, fun _ => true, fun _ _ => false⟩

/-- Witness masker: `/home/alice` registered as `[MASK0]`, prefix mode, enabled. -/
def wMasker : Masker := mkMasker wmOS [str "/home/alice"] (str "MASK") .pfx true

/-- Oracle for the C3 counterexample: nothing exists on disk, and the pattern `(`
does not compile (all other patterns do). -/
def wC3OS : OSModel :=
  ⟨id, fun _ => false, fun _ => false, fun _ => false, fun _ => false, id,
    fun _ => .notFound, fun p => decide (p ≠ str "("), fun _ _ => false⟩

/-- Oracle for the C3 amended witness: every path exists, and the pattern `(`
does not compile. -/
def wC3bOS : OSModel :=
  ⟨id, fun _ => true, fun _ => false, fun _ => false, fun _ => false, id,
    fun _ => .notFound, fun p => decide (p ≠ str "("), fun _ _ => false⟩

/-- Oracle for the C4 theorems: only the root `/r` and the file `/r/ok.txt` exist;
`/r/ok.txt` reads as `hello` and anything else fails with not-found. -/
def wC4OS : OSModel :=
  ⟨id, fun s => decide (s = str "/r") || decide (s = str "/r/ok.txt"),
    fun s => decide (s = str "/r"), fun _ => false, fun s => decide (s = str "/r/ok.txt"), id,
    fun s => if s = str "/r/ok.txt" then .ok (str "hello") else .notFound,
    fun _ => true, fun _ _ => false⟩

/-- Tool instance over `wC4OS` with allowed root `/r`. -/
def wC4Tool : Tool := mkTool wC4OS [str "/r"] [] true

/-! ## The directory walk of `list_file_paths` (`file_search.py` lines 151–230)

The walk is embedded over an inductive filesystem tree: paths are lists of entry
names (`Seg`), `os.path.join(current, name)` is `current ++ [name]` (names are
`/`-free), and the traversal root — the resolved `base_dir` — is the empty path
`[]`, so the `current_dir == base_dir` comparison of the `start_from` skip is
`cur = []`.  The `is_allowed_path` re-validation of each discovered entry is an
oracle parameter `allowed : Seg → Bool`; `show_hidden` is the effective value
after the `_SHOW_HIDDEN` clamp of lines 151–152; emitted paths are the
relative-to-root segment lists (`abs_path = False`; the absolute form only
prepends the base prefix to every entry).  The `while queue` loop runs on fuel:
`none` means the loop did not finish within the fuel, and the theorems hypothesize
a terminating run. -/

namespace Walk

/-- An entry name (one Python path component). -/
abbrev Name := List Char

/-- A path relative to the traversal root. -/
abbrev Seg := List Name

/-- A filesystem subtree: a regular file, some other non-directory entry
(e.g. a dangling symlink or socket), or a directory with named children. -/
inductive FSEntry where
  | file
  | other
  | dir (children : List (Name × FSEntry))

mutual

/-- Well-formedness of a tree: every directory's child names are distinct
(as `os.listdir` guarantees). -/
def FSEntry.wf : FSEntry → Bool
  | .file => true
  | .other => true
  | .dir cs => decide ((cs.map Prod.fst).Nodup) && wfChildren cs

/-- Well-formedness of a child list. -/
def wfChildren : List (Name × FSEntry) → Bool
  | [] => true
  | c :: cs => FSEntry.wf c.2 && wfChildren cs

end

end Walk

namespace Walk

/-- First child with the given name. -/
def lookupChild (n : Name) : List (Name × FSEntry) → Option FSEntry
  | [] => none
  | c :: cs => if c.1 = n then some c.2 else lookupChild n cs

/-- The subtree at a path. -/
def FSEntry.find : FSEntry → Seg → Option FSEntry
  | t, [] => some t
  | .dir cs, n :: rest =>
    match lookupChild n cs with
    | some c => c.find rest
    | none => none
  | _, _ :: _ => none

/-- `os.listdir` on the tree: child names of the directory at `d`, or `none`
(the caught `PermissionError` / `FileNotFoundError` branch of lines 180–183). -/
def listDir (fs : FSEntry) (d : Seg) : Option (List Name) :=
  match fs.find d with
  | some (.dir cs) => some (cs.map Prod.fst)
  | _ => none

/-- `os.path.isdir` on the tree. -/
def isDir (fs : FSEntry) (d : Seg) : Bool :=
  match fs.find d with
  | some (.dir _) => true
  | _ => false

/-- `os.path.isfile` on the tree. -/
def isFile (fs : FSEntry) (d : Seg) : Bool :=
  match fs.find d with
  | some .file => true
  | _ => false

/-- `is_hidden` on an entry name (POSIX dot-prefix). -/
def hiddenName (n : Name) : Bool := n.head? == some '.'

/-- Lexicographic code-point order on names (Python string comparison). -/
def nameLe : Name → Name → Bool
  | [], _ => true
  | _ :: _, [] => false
  | a :: s, b :: t => if a < b then true else if a = b then nameLe s t else false

/-- The order relation behind `entries.sort()`. -/
def nameRel (a b : Name) : Prop := nameLe a b = true

instance : DecidableRel nameRel := fun a b => instDecidableEqBool (nameLe a b) true

/-- `entries.sort()` (line 187).  Python's sort is stable; the theorems depend
only on the sorted output, and duplicate names cannot occur under `FSEntry.wf`. -/
def sortNames (l : List Name) : List Name := List.insertionSort nameRel l

/-- The final `results.sort()` (line 223) compares the emitted path strings. -/
def segRel (a b : Seg) : Prop := nameLe (joinChar '/' a) (joinChar '/' b) = true

instance : DecidableRel segRel := fun a b => instDecidableEqBool _ true

/-- The globally sorted result list. -/
def sortSegs (l : List Seg) : List Seg := List.insertionSort segRel l

/-- Pop according to mode (line 172–174): BFS takes `popleft()`, DFS takes
`pop()` from the back of the same deque. -/
def popQ (bfs : Bool) : List (Seg × Nat) → Option ((Seg × Nat) × List (Seg × Nat))
  | [] => none
  | x :: xs =>
    if bfs then some (x, xs)
    else some ((x :: xs).getLast (by simp), (x :: xs).dropLast)

/-- The `for name in entries` body (lines 193–219): re-validate via the allowed
oracle, enqueue subdirectories when the depth budget permits (independently of
`file_only`), filter emissions by `file_only`, append to results, and evaluate the
count and time limits after each emission (`tick m` is `elapsed > time_limit`
after the `m`-th emission).  Returns `(queue, results, limitHit, timeHit)`. -/
def procEntries (fs : FSEntry) (allowed : Seg → Bool) (fileOnly : Bool)
    (maxLvl limit timeLimit : Int) (tick : Nat → Bool) (cur : Seg) (depth : Nat) :
    List Name → List (Seg × Nat) → List Seg → (List (Seg × Nat) × List Seg × Bool × Bool)
  | [], queue, results => (queue, results, false, false)
  | n :: rest, queue, results =>
    let full := cur ++ [n]
    if !allowed full then
      procEntries fs allowed fileOnly maxLvl limit timeLimit tick cur depth rest queue results
    else
      let queue1 := if isDir fs full ∧ (maxLvl < 0 ∨ (depth : Int) < maxLvl)
        then queue ++ [(full, depth + 1)] else queue
      if isDir fs full ∧ fileOnly = true then
        procEntries fs allowed fileOnly maxLvl limit timeLimit tick cur depth rest queue1 results
      else if fileOnly = true ∧ isFile fs full = false then
        procEntries fs allowed fileOnly maxLvl limit timeLimit tick cur depth rest queue1 results
      else
        let results1 := results ++ [full]
        if limit ≥ 0 ∧ (results1.length : Int) ≥ limit then (queue1, results1, true, false)
        else if timeLimit ≠ -1 ∧ tick results1.length then (queue1, results1, false, true)
        else procEntries fs allowed fileOnly maxLvl limit timeLimit tick cur depth rest
          queue1 results1

/-- The `while queue` loop (lines 170–221): pop per mode, depth check, `listdir`
with error skip, hidden filter and sort, the root-only `start_from` skip, the
entry loop, then the break-out on a fired limit. -/
def walkLoop (fs : FSEntry) (allowed : Seg → Bool) (showHidden : Bool) (fileOnly : Bool)
    (maxLvl : Int) (bfs : Bool) (limit timeLimit : Int) (tick : Nat → Bool)
    (startFrom : Nat) : Nat → List (Seg × Nat) → List Seg → Option (List Seg × Bool × Bool)
  | fuel, queue, results =>
    match popQ bfs queue with
    | none => some (results, false, false)
    | some ((cur, depth), queue') =>
      match fuel with
      | 0 => none
      | fuel' + 1 =>
        if maxLvl ≥ 0 ∧ (depth : Int) > maxLvl then
          walkLoop fs allowed showHidden fileOnly maxLvl bfs limit timeLimit tick startFrom
            fuel' queue' results
        else
          match listDir fs cur with
          | none =>
            walkLoop fs allowed showHidden fileOnly maxLvl bfs limit timeLimit tick startFrom
              fuel' queue' results
          | some names =>
            let entries0 := sortNames (names.filter (fun n => showHidden || !hiddenName n))
            let entries := if cur = [] ∧ startFrom > 0 then entries0.drop startFrom else entries0
            match procEntries fs allowed fileOnly maxLvl limit timeLimit tick cur depth
                entries queue' results with
            | (queue2, results2, lim, tim) =>
              if lim = true ∨ tim = true then some (results2, lim, tim)
              else walkLoop fs allowed showHidden fileOnly maxLvl bfs limit timeLimit tick
                startFrom fuel' queue2 results2

/-- `list_file_paths` (lines 160–230) over the tree: the resolved base is the
root path `[]`, the queue is seeded with `[(base, 0)]`, and the final results are
globally re-sorted. -/
def listFilePaths (fs : FSEntry) (allowed : Seg → Bool) (showHidden fileOnly : Bool)
    (maxLvl : Int) (bfs : Bool) (limit timeLimit : Int) (tick : Nat → Bool)
    (startFrom : Nat) (fuel : Nat) : Option (List Seg × Bool × Bool) :=
  match walkLoop fs allowed showHidden fileOnly maxLvl bfs limit timeLimit tick startFrom
      fuel [([], 0)] [] with
  | some (results, lim, tim) => some (sortSegs results, lim, tim)
  | none => none

end Walk

namespace Walk

mutual

/-- Specification side: all entries reachable below the subtree `t` rooted at
path `d` — visible per the hidden policy and allowed, descending only into
allowed visible subdirectories.  Defined from the spec's description of the walk
for comparison with the loop above. -/
def dirReach (allowed : Seg → Bool) (showHidden : Bool) : FSEntry → Seg → List Seg
  | .file, _ => []
  | .other, _ => []
  | .dir cs, d => dirReachChildren allowed showHidden cs d

/-- `dirReach` over a child list. -/
def dirReachChildren (allowed : Seg → Bool) (showHidden : Bool) :
    List (Name × FSEntry) → Seg → List Seg
  | [], _ => []
  | c :: cs, d =>
    (if (showHidden || !hiddenName c.1) && allowed (d ++ [c.1])
      then (d ++ [c.1]) :: dirReach allowed showHidden c.2 (d ++ [c.1])
      else []) ++ dirReachChildren allowed showHidden cs d

end

end Walk

namespace Walk

/-- Reachable entries below the directory at path `d` of the whole tree. -/
def entUnderAt (allowed : Seg → Bool) (showHidden : Bool) (fs : FSEntry) (d : Seg) :
    List Seg :=
  match fs.find d with
  | some t => dirReach allowed showHidden t d
  | none => []

/-- The visible sorted entries of the traversal root. -/
def rootVisible (showHidden : Bool) (fs : FSEntry) : List Name :=
  match listDir fs [] with
  | some names => sortNames (names.filter (fun n => showHidden || !hiddenName n))
  | none => []

/-- Specification of the full walk with `start_from = k`: the first `k` sorted
visible root entries are skipped once, at the root only — below the top level the
full `dirReach` applies. -/
def rootReach (allowed : Seg → Bool) (showHidden : Bool) (fs : FSEntry) (k : Nat) :
    List Seg :=
  ((rootVisible showHidden fs).drop k).bind
    (fun n => if allowed [n] then [n] :: entUnderAt allowed showHidden fs [n] else [])

/-- The hidden-filtered sorted entry list of one directory listing (lines 185–187). -/
def visEntries (sh : Bool) (names : List Name) : List Name :=
  sortNames (names.filter (fun n => sh || !hiddenName n))

/-- The paths emitted at `cur` by one pass of the entry loop with `file_only = False`
and no count or time budget: every allowed entry, in listing order. -/
def emitOf (allowed : Seg → Bool) (cur : Seg) (entries : List Name) : List Seg :=
  (entries.filter (fun n => allowed (cur ++ [n]))).map (fun n => cur ++ [n])

/-- The queue items enqueued at `cur` by one pass of the entry loop with an
unrestricted depth budget: every allowed subdirectory, at depth `depth + 1`. -/
def enqOf (fs : FSEntry) (allowed : Seg → Bool) (cur : Seg) (depth : Nat)
    (entries : List Name) : List (Seg × Nat) :=
  (entries.filter (fun n => allowed (cur ++ [n]) && isDir fs (cur ++ [n]))).map
    (fun n => (cur ++ [n], depth + 1))

/-- Witness tree: root with children `a` (a directory holding `x.txt`), `b`
(a file) and `c` (a directory holding `y.txt`). -/
def wTree : FSEntry :=
  .dir [(str "a", .dir [(str "x.txt", .file)]), (str "b", .file),
    (str "c", .dir [(str "y.txt", .file)])]

end Walk

end FSTool

namespace FSTool

/-! ## Theorems -/

/-! ### Generic list / string helper lemmas -/

theorem dropWhile_eq_self_of_head {p : Char → Bool} {l : List Char}
    (h : ∀ a, l.head? = some a → p a = false) : l.dropWhile p = l := by
  cases l with
  | nil => rfl
  | cons a t => rw [List.dropWhile_cons, h a rfl]; simp

theorem rstripSlash_eq_self {s : PyStr} (h : s.getLast? ≠ some '/') : rstripSlash s = s := by
  unfold rstripSlash
  rw [dropWhile_eq_self_of_head, List.reverse_reverse]
  intro a ha
  rw [List.head?_reverse] at ha
  simp only [beq_eq_false_iff_ne, ne_eq]
  intro hb
  exact h (by rw [← hb]; exact ha)

theorem rstripSeps_eq_self {s : PyStr} (h1 : s.getLast? ≠ some '/')
    (h2 : s.getLast? ≠ some '\\') : rstripSeps s = s := by
  unfold rstripSeps
  rw [dropWhile_eq_self_of_head, List.reverse_reverse]
  intro a ha
  rw [List.head?_reverse] at ha
  have ha1 : a ≠ '/' := fun hc => h1 (by rw [← hc]; exact ha)
  have ha2 : a ≠ '\\' := fun hc => h2 (by rw [← hc]; exact ha)
  simp [ha1, ha2]

theorem append_pre_cancel {a b c : List Char} : (a ++ b <+: a ++ c) ↔ (b <+: c) := by
  induction a with
  | nil => simp
  | cons x a ih => simpa [List.cons_prefix_cons] using ih

theorem pre_of_slash_pre {a : PyStr} (ha : a.getLast? ≠ some '/') :
    ∀ {b : PyStr}, (a ++ ['/'] <+: b ++ ['/']) → a <+: b := by
  induction a with
  | nil => exact fun _ => List.nil_prefix
  | cons x a ih =>
    intro b h
    cases b with
    | nil =>
      rcases List.cons_prefix_cons.mp h with ⟨hx, h2⟩
      exfalso
      have := h2.length_le
      simp at this
    | cons y b' =>
      rcases List.cons_prefix_cons.mp h with ⟨hxy, h2⟩
      subst hxy
      cases a with
      | nil => exact List.cons_prefix_cons.mpr ⟨rfl, List.nil_prefix⟩
      | cons z a' =>
        refine List.cons_prefix_cons.mpr ⟨rfl, ih ?_ h2⟩
        rwa [List.getLast?_cons_cons] at ha

theorem rest_head_slash {a rest : PyStr} (h : a ++ ['/'] <+: (a ++ rest) ++ ['/']) :
    rest = [] ∨ rest.head? = some '/' := by
  rw [List.append_assoc] at h
  have h2 : ['/'] <+: rest ++ ['/'] := append_pre_cancel.mp h
  cases rest with
  | nil => exact Or.inl rfl
  | cons r rs =>
    rcases List.cons_prefix_cons.mp h2 with ⟨hr, _⟩
    exact Or.inr (by rw [← hr]; rfl)

theorem replaceFirst_of_pre {pat rep s : PyStr} (h : pat <+: s) :
    replaceFirst pat rep s = rep ++ s.drop pat.length := by
  cases s with
  | nil =>
    have hp : pat = [] := List.prefix_nil.mp h
    subst hp
    simp [replaceFirst]
  | cons a t =>
    unfold replaceFirst
    rw [if_pos (List.isPrefixOf_iff_prefix.mpr h)]

theorem find?_eq_of_unique {α : Type} {p : α → Bool} {l : List α} {x : α}
    (hx : x ∈ l) (hpx : p x = true) (huniq : ∀ y ∈ l, p y = true → y = x) :
    l.find? p = some x := by
  induction l with
  | nil => cases hx
  | cons a t ih =>
    by_cases ha : p a = true
    · have hax : a = x := huniq a (List.mem_cons_self a t) ha
      subst hax
      exact List.find?_cons_of_pos _ ha
    · have hx' : x ∈ t := by
        cases List.mem_cons.mp hx with
        | inl h => subst h; exact absurd hpx ha
        | inr h => exact h
      rw [List.find?_cons_of_neg _ (by simpa using ha)]
      exact ih hx' (fun y hy hp => huniq y (List.mem_cons_of_mem _ hy) hp)

theorem find?_sorted_max {p : PyStr × PyStr → Bool} {l : List (PyStr × PyStr)}
    {x : PyStr × PyStr} (hs : List.Sorted lenGE l) (hf : l.find? p = some x) :
    ∀ y ∈ l, p y = true → y.1.length ≤ x.1.length := by
  induction l with
  | nil => cases hf
  | cons a t ih =>
    rw [List.sorted_cons] at hs
    by_cases ha : p a = true
    · rw [List.find?_cons_of_pos _ ha] at hf
      injection hf with hf
      subst hf
      intro y hy _
      cases List.mem_cons.mp hy with
      | inl h => subst h; exact le_refl _
      | inr h => exact hs.1 y h
    · rw [List.find?_cons_of_neg _ (by simpa using ha)] at hf
      intro y hy hp
      cases List.mem_cons.mp hy with
      | inl h => subst h; exact absurd hp ha
      | inr h => exact ih hs.2 hf y h hp

/-! ### Token arithmetic: the decimal tokens `[MASKi]` are pairwise separator-disjoint -/

theorem digitChar_inj_lt : ∀ d1 < 10, ∀ d2 < 10, Nat.digitChar d1 = Nat.digitChar d2 → d1 = d2 := by
  decide

theorem map_digitChar_inj : ∀ {l1 l2 : List Nat}, (∀ d ∈ l1, d < 10) → (∀ d ∈ l2, d < 10) →
    l1.map Nat.digitChar = l2.map Nat.digitChar → l1 = l2
  | [], [], _, _, _ => rfl
  | [], _ :: _, _, _, h => by cases h
  | _ :: _, [], _, _, h => by cases h
  | a :: l1, b :: l2, h1, h2, h => by
    injection h with hh ht
    have hab : a = b := digitChar_inj_lt a (h1 a (.head _)) b (h2 b (.head _)) hh
    rw [hab, map_digitChar_inj (fun d hd => h1 d (.tail _ hd)) (fun d hd => h2 d (.tail _ hd)) ht]

theorem digits_inj {a b : Nat} (h : Nat.digits 10 a = Nat.digits 10 b) : a = b := by
  have := congrArg (Nat.ofDigits 10) h
  rwa [Nat.ofDigits_digits, Nat.ofDigits_digits] at this

theorem digitChar_eq_zeroChar : ∀ d < 10, Nat.digitChar d = '0' → d = 0 := by
  decide

theorem digitChar_ne_rbracket : ∀ d < 10, Nat.digitChar d ≠ ']' := by
  decide

theorem natChars_singleton_zero {b : Nat} (hb : b ≠ 0)
    (h : (Nat.digits 10 b).reverse.map Nat.digitChar = ['0']) : False := by
  rcases hrev : (Nat.digits 10 b).reverse with _ | ⟨d, rest⟩
  · rw [hrev] at h; cases h
  · rw [hrev] at h
    rcases rest with _ | ⟨e, rest⟩
    · simp only [List.map_cons, List.map_nil] at h
      injection h with h1 _
      have hdlt : d < 10 := by
        apply Nat.digits_lt_base (by norm_num)
        exact List.mem_reverse.mp (by rw [hrev]; exact .head _)
      have hd0 : d = 0 := digitChar_eq_zeroChar d hdlt h1
      have hdig : Nat.digits 10 b = [0] := by
        have hr := congrArg List.reverse hrev
        rw [List.reverse_reverse] at hr
        rw [hr, hd0]
        rfl
      have := congrArg (Nat.ofDigits 10) hdig
      rw [Nat.ofDigits_digits] at this
      simp [Nat.ofDigits] at this
      exact hb this
    · simp at h

theorem natChars_inj {a b : Nat} (h : natChars a = natChars b) : a = b := by
  unfold natChars at h
  by_cases ha : a = 0 <;> by_cases hb : b = 0
  · rw [ha, hb]
  · rw [if_pos ha, if_neg hb] at h
    exact absurd h.symm (fun hc => natChars_singleton_zero hb hc)
  · rw [if_neg ha, if_pos hb] at h
    exact absurd h (fun hc => natChars_singleton_zero ha hc)
  · rw [if_neg ha, if_neg hb] at h
    have h2 := map_digitChar_inj
      (fun d hd => Nat.digits_lt_base (by norm_num) (List.mem_reverse.mp hd))
      (fun d hd => Nat.digits_lt_base (by norm_num) (List.mem_reverse.mp hd)) h
    exact digits_inj (List.reverse_inj.mp h2)

theorem rbracket_not_mem_natChars (n : Nat) : ']' ∉ natChars n := by
  unfold natChars
  split
  · decide
  · intro hmem
    rcases List.mem_map.mp hmem with ⟨d, hd, hdc⟩
    have hdlt : d < 10 := Nat.digits_lt_base (by norm_num) (List.mem_reverse.mp hd)
    exact digitChar_ne_rbracket d hdlt hdc

theorem maskTok_inj {T : PyStr} {a b : Nat} (h : maskTok T a = maskTok T b) : a = b := by
  unfold maskTok at h
  injection h with _ h
  exact natChars_inj (List.append_cancel_left (List.append_cancel_right h))

theorem maskTok_getLast (T : PyStr) (i : Nat) : (maskTok T i).getLast? = some ']' := by
  unfold maskTok
  rw [show '[' :: (T ++ natChars i ++ [']']) = ('[' :: (T ++ natChars i)) ++ [']'] from by simp]
  exact List.getLast?_concat _

theorem digits_bracket {dj : PyStr} (hj : ']' ∉ dj) :
    ∀ {di R : PyStr}, ']' ∉ di → (dj ++ [']', '/'] <+: di ++ ']' :: R) → dj = di := by
  induction dj with
  | nil =>
    intro di R hi h
    cases di with
    | nil => rfl
    | cons d di' =>
      rcases List.cons_prefix_cons.mp h with ⟨hd, _⟩
      exact absurd (by rw [← hd]; exact .head _) hi
  | cons c dj' ih =>
    intro di R hi h
    cases di with
    | nil =>
      rcases List.cons_prefix_cons.mp h with ⟨hd, _⟩
      exact absurd (by rw [hd]; exact .head _) hj
    | cons d di' =>
      rcases List.cons_prefix_cons.mp h with ⟨hd, h2⟩
      subst hd
      rw [ih (fun hm => hj (.tail _ hm)) (fun hm => hi (.tail _ hm)) h2]

theorem maskTok_pre_index {T : PyStr} {i j : Nat} {R : PyStr}
    (h : maskTok T j ++ ['/'] <+: maskTok T i ++ R) : j = i := by
  unfold maskTok at h
  rw [show ('[' :: (T ++ natChars j ++ [']'])) ++ ['/']
      = '[' :: (T ++ (natChars j ++ [']', '/'])) from by simp,
    show ('[' :: (T ++ natChars i ++ [']'])) ++ R
      = '[' :: (T ++ (natChars i ++ ']' :: R)) from by simp] at h
  rcases List.cons_prefix_cons.mp h with ⟨_, h2⟩
  exact natChars_inj (digits_bracket (rbracket_not_mem_natChars j)
    (rbracket_not_mem_natChars i) (append_pre_cancel.mp h2))

theorem maskTok_self_pre {T : PyStr} {i : Nat} {rest : PyStr}
    (h : rest = [] ∨ rest.head? = some '/') :
    maskTok T i ++ ['/'] <+: (maskTok T i ++ rest) ++ ['/'] := by
  rw [List.append_assoc]
  apply append_pre_cancel.mpr
  cases h with
  | inl h => subst h; simp
  | inr h =>
    cases rest with
    | nil => simp
    | cons r rs =>
      have hr : r = '/' := by simpa using h
      subst hr
      exact List.cons_prefix_cons.mpr ⟨rfl, List.nil_prefix⟩

/-! ### `create_masked_map` characterization (prefix mode) -/

theorem createGo_rm (os : OSModel) (T : PyStr) (l : List PyStr) :
    ∀ (i : Nat) (mm rm : List (PyStr × PyStr)),
    (∀ kv ∈ rm, ∃ j, j < i ∧ kv.1 = maskTok T j) →
    (createGo os T .pfx l i mm rm).2
      = rm ++ (l.enumFrom i).map (fun js => (maskTok T js.1, keyOf os js.2)) := by
  induction l with
  | nil =>
    intro i mm rm _
    simp [createGo]
  | cons s rest ih =>
    intro i mm rm hrm
    have hfresh : (rm.any fun kv => decide (kv.1 = maskTok T i)) = false := by
      rw [List.any_eq_false]
      intro kv hkv hbeq
      rcases hrm kv hkv with ⟨j, hj, hkvj⟩
      have heq := of_decide_eq_true hbeq
      rw [hkvj] at heq
      exact absurd (maskTok_inj heq) (Nat.ne_of_lt hj)
    have hins : dictInsert rm (maskTok T i) (keyOf os s) = rm ++ [(maskTok T i, keyOf os s)] := by
      unfold dictInsert
      rw [hfresh]
      simp
    have hrm' : ∀ kv ∈ rm ++ [(maskTok T i, keyOf os s)], ∃ j, j < i + 1 ∧ kv.1 = maskTok T j := by
      intro kv hkv
      rcases List.mem_append.mp hkv with hkv | hkv
      · rcases hrm kv hkv with ⟨j, hj, hkvj⟩
        exact ⟨j, Nat.lt_succ_of_lt hj, hkvj⟩
      · rcases List.mem_singleton.mp hkv with rfl
        exact ⟨i, Nat.lt_succ_self i, rfl⟩
    calc (createGo os T .pfx (s :: rest) i mm rm).2
        = (createGo os T .pfx rest (i + 1) (dictInsert mm (keyOf os s) (maskTok T i))
            (rm ++ [(maskTok T i, keyOf os s)])).2 := by
          simp only [createGo]
          rw [← hins]
      _ = (rm ++ [(maskTok T i, keyOf os s)])
            ++ (rest.enumFrom (i + 1)).map (fun js => (maskTok T js.1, keyOf os js.2)) :=
          ih (i + 1) _ _ hrm'
      _ = rm ++ ((s :: rest).enumFrom i).map (fun js => (maskTok T js.1, keyOf os js.2)) := by
          rw [List.enumFrom_cons]
          simp

theorem create_rm_closed (os : OSModel) (T : PyStr) (lf : List PyStr) :
    (create_masked_map os lf T .pfx).2
      = lf.enum.map (fun js => (maskTok T js.1, keyOf os js.2)) := by
  have h := createGo_rm os T lf 0 [] [] (by simp)
  simpa [create_masked_map, List.enum] using h

theorem createGo_mm (os : OSModel) (T : PyStr) (S : List PyStr) (l : List PyStr) :
    ∀ (i : Nat) (mm rm : List (PyStr × PyStr)),
    (∀ kv ∈ rm, ∃ j, j < i ∧ kv.1 = maskTok T j) →
    (∀ s ∈ l, s ∈ S) →
    (∀ kv ∈ mm, (∃ s ∈ S, kv.1 = keyOf os s) ∧ (kv.2, kv.1) ∈ rm) →
    ∀ kv ∈ (createGo os T .pfx l i mm rm).1,
      (∃ s ∈ S, kv.1 = keyOf os s) ∧ (kv.2, kv.1) ∈ (createGo os T .pfx l i mm rm).2 := by
  induction l with
  | nil =>
    intro i mm rm _ _ hmm
    simpa [createGo] using hmm
  | cons s rest ih =>
    intro i mm rm hrm hsub hmm
    have hfresh : (rm.any fun kv => decide (kv.1 = maskTok T i)) = false := by
      rw [List.any_eq_false]
      intro kv hkv hbeq
      rcases hrm kv hkv with ⟨j, hj, hkvj⟩
      have heq := of_decide_eq_true hbeq
      rw [hkvj] at heq
      exact absurd (maskTok_inj heq) (Nat.ne_of_lt hj)
    have hins : dictInsert rm (maskTok T i) (keyOf os s) = rm ++ [(maskTok T i, keyOf os s)] := by
      unfold dictInsert
      rw [hfresh]
      simp
    have hstep : createGo os T .pfx (s :: rest) i mm rm
        = createGo os T .pfx rest (i + 1) (dictInsert mm (keyOf os s) (maskTok T i))
            (rm ++ [(maskTok T i, keyOf os s)]) := by
      simp only [createGo]
      rw [← hins]
    rw [hstep]
    apply ih
    · intro kv hkv
      rcases List.mem_append.mp hkv with hkv | hkv
      · rcases hrm kv hkv with ⟨j, hj, hkvj⟩
        exact ⟨j, Nat.lt_succ_of_lt hj, hkvj⟩
      · rcases List.mem_singleton.mp hkv with rfl
        exact ⟨i, Nat.lt_succ_self i, rfl⟩
    · exact fun x hx => hsub x (.tail _ hx)
    · intro kv hkv
      unfold dictInsert at hkv
      by_cases hex : (mm.any fun kv => decide (kv.1 = keyOf os s)) = true
      · rw [if_pos hex] at hkv
        rcases List.mem_map.mp hkv with ⟨kv0, hkv0, hkveq⟩
        by_cases hk : kv0.1 = keyOf os s
        · rw [if_pos hk] at hkveq
          subst hkveq
          exact ⟨⟨s, hsub s (.head _), rfl⟩, List.mem_append_right _ (.head _)⟩
        · rw [if_neg hk] at hkveq
          subst hkveq
          rcases hmm kv0 hkv0 with ⟨hs0, hrm0⟩
          exact ⟨hs0, List.mem_append_left _ hrm0⟩
      · rw [if_neg hex] at hkv
        rcases List.mem_append.mp hkv with hkv | hkv
        · rcases hmm kv hkv with ⟨hs0, hrm0⟩
          exact ⟨hs0, List.mem_append_left _ hrm0⟩
        · rcases List.mem_singleton.mp hkv with rfl
          exact ⟨⟨s, hsub s (.head _), rfl⟩, List.mem_append_right _ (.head _)⟩

theorem create_mm_key (os : OSModel) (T : PyStr) (lf : List PyStr) :
    ∀ kv ∈ (create_masked_map os lf T .pfx).1,
      (∃ s ∈ lf, kv.1 = keyOf os s) ∧ (kv.2, kv.1) ∈ (create_masked_map os lf T .pfx).2 :=
  createGo_mm os T lf lf 0 [] [] (by simp) (fun _ h => h) (by simp)

/-! ### More string helpers -/

theorem splitOnChar_ne_nil (c : Char) (s : PyStr) : splitOnChar c s ≠ [] := by
  cases s with
  | nil => simp [splitOnChar]
  | cons a rest =>
    unfold splitOnChar
    rcases h : splitOnChar c rest with _ | ⟨h1, t⟩
    · simp
    · show ¬(if a = c then [] :: h1 :: t else (a :: h1) :: t) = []
      split <;> simp

theorem joinChar_splitOnChar (c : Char) (s : PyStr) : joinChar c (splitOnChar c s) = s := by
  induction s with
  | nil => rfl
  | cons a rest ih =>
    unfold splitOnChar
    rcases h : splitOnChar c rest with _ | ⟨h1, t⟩
    · exact absurd h (splitOnChar_ne_nil c rest)
    · rw [h] at ih
      show joinChar c (if a = c then [] :: h1 :: t else (a :: h1) :: t) = a :: rest
      by_cases hac : a = c
      · rw [if_pos hac]
        show [] ++ c :: joinChar c (h1 :: t) = a :: rest
        rw [List.nil_append, ih, hac]
      · rw [if_neg hac]
        cases t with
        | nil =>
          simp only [joinChar] at ih ⊢
          rw [ih]
        | cons t1 ts =>
          simp only [joinChar] at ih ⊢
          rw [List.cons_append, ih]

theorem dropWhile_dropWhile_subset {p q : Char → Bool} (hpq : ∀ ch, q ch = true → p ch = true) :
    ∀ l : List Char, (l.dropWhile q).dropWhile p = l.dropWhile p := by
  intro l
  induction l with
  | nil => rfl
  | cons a t ih =>
    by_cases hq : q a = true
    · rw [List.dropWhile_cons, if_pos hq, ih, List.dropWhile_cons, if_pos (hpq a hq)]
    · rw [List.dropWhile_cons, if_neg hq]

theorem rstripSeps_rstripSlash (s : PyStr) : rstripSeps (rstripSlash s) = rstripSeps s := by
  unfold rstripSeps rstripSlash
  rw [List.reverse_reverse, dropWhile_dropWhile_subset]
  intro ch h
  rw [beq_iff_eq] at h
  simp [h]

theorem head?_dropWhile_false {p : Char → Bool} {a : Char} :
    ∀ {l : List Char}, (l.dropWhile p).head? = some a → p a = false := by
  intro l
  induction l with
  | nil => intro h; cases h
  | cons x t ih =>
    intro h
    by_cases hx : p x = true
    · rw [List.dropWhile_cons, if_pos hx] at h
      exact ih h
    · rw [List.dropWhile_cons, if_neg hx] at h
      injection h with h
      subst h
      simpa using hx

theorem rstripSlash_getLast_ne (s : PyStr) : (rstripSlash s).getLast? ≠ some '/' := by
  unfold rstripSlash
  intro h
  rw [← List.head?_reverse, List.reverse_reverse] at h
  have := head?_dropWhile_false h
  simp at this

theorem pre_eq_of_length {a b t : List Char} (ha : a <+: t) (hb : b <+: t)
    (hl : a.length = b.length) : a = b := by
  rw [List.prefix_iff_eq_take] at ha hb
  rw [ha, hb, hl]

theorem assoc_nodup_value {l : List (PyStr × PyStr)} (hnd : (l.map Prod.fst).Nodup)
    {k v1 v2 : PyStr} (h1 : (k, v1) ∈ l) (h2 : (k, v2) ∈ l) : v1 = v2 := by
  induction l with
  | nil => cases h1
  | cons a t ih =>
    rw [List.map_cons, List.nodup_cons] at hnd
    cases List.mem_cons.mp h1 with
    | inl hh1 =>
      cases List.mem_cons.mp h2 with
      | inl hh2 => rw [← hh1] at hh2; exact (Prod.mk.injEq _ _ _ _).mp hh2.symm |>.2
      | inr hh2 =>
        exfalso
        apply hnd.1
        rw [← hh1]
        exact List.mem_map.mpr ⟨(k, v2), hh2, rfl⟩
    | inr hh1 =>
      cases List.mem_cons.mp h2 with
      | inl hh2 =>
        exfalso
        apply hnd.1
        rw [← hh2]
        exact List.mem_map.mpr ⟨(k, v1), hh1, rfl⟩
      | inr hh2 => exact ih hnd.2 hh1 hh2

theorem getLast?_append_right {l1 l2 : List Char} (h : l2 ≠ []) :
    (l1 ++ l2).getLast? = l2.getLast? := by
  rw [List.getLast?_append]
  cases hl : l2.getLast? with
  | none =>
    exfalso
    cases l2 with
    | nil => exact h rfl
    | cons a t => rw [List.getLast?_eq_getLast _ (by simp)] at hl; cases hl
  | some b => rfl

theorem mem_cleanup_resolve_fixed (os : OSModel)
    (Hidem : ∀ s, os.resolve (os.resolve s) = os.resolve s) (l : List PyStr) :
    ∀ q ∈ cleanup_path_list os l, os.resolve q = q := by
  intro q hq
  rcases List.mem_map.mp hq with ⟨raw, _, rfl⟩
  exact Hidem raw

theorem resolveCore_ok_some (os : OSModel) (t : Tool) (strict : Bool) (rel r : PyStr)
    (Hok : resolveCore os t strict rel = .ok (some r)) :
    (∃ c, r = os.resolve c) ∧
    (t.allowed_paths.any fun root => pathStartswith os root r) = true ∧
    (t.exclude_paths.any fun ex => pathStartswith os ex r) = false := by
  simp only [resolveCore] at Hok
  split at Hok
  · split at Hok <;> cases Hok
  · rename_i cand hcand
    split at Hok
    · split at Hok <;> cases Hok
    · rename_i h1
      split at Hok
      · split at Hok <;> cases Hok
      · rename_i h2
        split at Hok
        · split at Hok <;> cases Hok
        · rename_i h3
          split at Hok
          · split at Hok <;> cases Hok
          · injection Hok with Hok
            injection Hok with Hok
            subst Hok
            refine ⟨⟨cand, rfl⟩, ?_, ?_⟩
            · simpa using h2
            · simpa using h3

/-- C10: when masking is enabled, `mask_path` canonicalizes its input first — it
computes `str(Path(path).resolve()).rstrip("/")` before attempting any token
substitution — so an input that matches no registered sensitive path is returned in
canonical absolute form rather than verbatim, in both prefix and segment modes;
`mask_path` is therefore not the identity on non-matching inputs whose canonical
form differs from the input. -/
theorem C10_mask_canonicalizes (os : OSModel) (m : Masker) (path : PyStr)
    (hen : m.enabled = true) :
    (m.mode = .pfx →
      (∀ kv ∈ m.masked_map, pathStartswith os kv.1 (rstripSlash (os.resolve path)) = false) →
      mask_path os m path = rstripSlash (os.resolve path)) ∧
    (m.mode = .seg →
      (∀ part ∈ splitOnChar '/' (rstripSlash (os.resolve path)),
        (m.masked_map.find? fun kv => decide (kv.1 = part)) = none) →
      mask_path os m path = rstripSlash (os.resolve path)) := by
  constructor
  · intro hmode hnone
    simp only [mask_path, hen, Bool.not_true, Bool.false_eq_true, if_false, hmode]
    have hfind : ((List.insertionSort lenGE m.masked_map).find?
        fun kv => pathStartswith os kv.1 (rstripSlash (os.resolve path))) = none := by
      rw [List.find?_eq_none]
      intro kv hkv
      have hkv' : kv ∈ m.masked_map := (List.perm_insertionSort lenGE m.masked_map).mem_iff.mp hkv
      simp [hnone kv hkv']
    rw [hfind]
  · intro hmode hnone
    simp only [mask_path, hen, Bool.not_true, Bool.false_eq_true, if_false, hmode]
    have hmap : (splitOnChar '/' (rstripSlash (os.resolve path))).map
        (fun part => lookupD m.masked_map part part)
        = splitOnChar '/' (rstripSlash (os.resolve path)) := by
      have : ∀ part ∈ splitOnChar '/' (rstripSlash (os.resolve path)),
          lookupD m.masked_map part part = part := by
        intro part hpart
        unfold lookupD
        rw [hnone part hpart]
      rw [List.map_congr_left this, List.map_id']
    rw [hmap, joinChar_splitOnChar]

/-- Witness for C10: with cwd `/cwd` and `/home/alice` registered, masking the
relative non-matching input `rel/x` returns its canonical form `/cwd/rel/x`,
which differs from the verbatim input. -/
theorem C10_mask_canonicalizes_witness :
    mask_path wmOS wMasker (str "rel/x") = str "/cwd/rel/x" ∧
    mask_path wmOS wMasker (str "rel/x") ≠ str "rel/x" := by
  have h := (C10_mask_canonicalizes wmOS wMasker (str "rel/x") rfl).1 rfl (by decide)
  constructor
  · rw [h]; decide
  · rw [h]; decide

/-- C5: in prefix mode with masking enabled, `mask_path` replaces the longest
registered key that is a `path_startswith`-containing prefix of the input's
canonical form with its token, leaving the remainder of the path intact; when no
registered key contains the input, the canonical input is returned unmasked.
Containment is separator-bounded (`/home/alice` masks `/home/alice/notes/x.txt`
but not `/home/alicexyz`, see the witness). -/
theorem C5_mask_longest_key (os : OSModel) (m : Masker) (P : PyStr)
    (hen : m.enabled = true) (hmode : m.mode = .pfx)
    (hP : rstripSlash (os.resolve P) = P) (hPb : P.getLast? ≠ some '\\')
    (hnodup : (m.masked_map.map Prod.fst).Nodup)
    (hkeys : ∀ kv ∈ m.masked_map, os.resolve kv.1 = kv.1 ∧ kv.1.getLast? ≠ some '/' ∧
      kv.1.getLast? ≠ some '\\') :
    (∀ kstar tstar, (kstar, tstar) ∈ m.masked_map →
      pathStartswith os kstar P = true →
      (∀ kv ∈ m.masked_map, pathStartswith os kv.1 P = true → kv.1.length ≤ kstar.length) →
      mask_path os m P = tstar ++ P.drop kstar.length) ∧
    ((∀ kv ∈ m.masked_map, pathStartswith os kv.1 P = false) →
      mask_path os m P = P) := by
  have hPs : P.getLast? ≠ some '/' := by rw [← hP]; exact rstripSlash_getLast_ne _
  have hResP : rstripSeps (os.resolve P) = P := by
    rw [← rstripSeps_rstripSlash, hP, rstripSeps_eq_self hPs hPb]
  have hsw : ∀ k, os.resolve k = k → k.getLast? ≠ some '/' → k.getLast? ≠ some '\\' →
      (pathStartswith os k P = true ↔ (k ++ ['/'] <+: P ++ ['/'])) := by
    intro k hk hk1 hk2
    unfold pathStartswith
    rw [hk, hResP, rstripSeps_eq_self hk1 hk2]
    exact ⟨fun h => List.isPrefixOf_iff_prefix.mp h, fun h => List.isPrefixOf_iff_prefix.mpr h⟩
  constructor
  · intro kstar tstar hmem hstar hmax
    simp only [mask_path, hen, Bool.not_true, Bool.false_eq_true, if_false, hmode, hP]
    rcases hfind : (List.insertionSort lenGE m.masked_map).find?
        (fun kv => pathStartswith os kv.1 P) with _ | kv0
    · exfalso
      exact List.find?_eq_none.mp hfind (kstar, tstar)
        ((List.perm_insertionSort lenGE m.masked_map).symm.mem_iff.mp hmem) hstar
    · rw [hfind]
      have hkv0p : pathStartswith os kv0.1 P = true := by
        have h0 := List.find?_some hfind
        simpa using h0
      have hkv0mem : kv0 ∈ m.masked_map :=
        (List.perm_insertionSort lenGE m.masked_map).mem_iff.mp (List.mem_of_find?_eq_some hfind)
      rcases hkeys kv0 hkv0mem with ⟨hr0, h01, h02⟩
      rcases hkeys (kstar, tstar) hmem with ⟨hrs, hs1, hs2⟩
      have hlen1 : kv0.1.length ≤ kstar.length := hmax kv0 hkv0mem hkv0p
      have hlen2 : kstar.length ≤ kv0.1.length := by
        refine find?_sorted_max (List.sorted_insertionSort lenGE m.masked_map) hfind
          (kstar, tstar) ?_ hstar
        exact (List.perm_insertionSort lenGE m.masked_map).symm.mem_iff.mp hmem
      have hkeq : kv0.1 = kstar := by
        have he : kv0.1 ++ ['/'] = kstar ++ ['/'] := by
          apply pre_eq_of_length ((hsw kv0.1 hr0 h01 h02).mp hkv0p)
            ((hsw kstar hrs hs1 hs2).mp hstar)
          simp [Nat.le_antisymm hlen1 hlen2]
        exact List.append_cancel_right he
      have hteq : kv0.2 = tstar := by
        apply assoc_nodup_value hnodup _ hmem
        rw [← hkeq]
        exact hkv0mem
      have hpre : kstar <+: P := pre_of_slash_pre hs1 ((hsw kstar hrs hs1 hs2).mp hstar)
      show replaceFirst kv0.1 kv0.2 P = tstar ++ P.drop kstar.length
      rw [hkeq, hteq, replaceFirst_of_pre hpre]
  · intro hnone
    simp only [mask_path, hen, Bool.not_true, Bool.false_eq_true, if_false, hmode, hP]
    have hfind : ((List.insertionSort lenGE m.masked_map).find?
        fun kv => pathStartswith os kv.1 P) = none := by
      rw [List.find?_eq_none]
      intro kv hkv
      simp [hnone kv ((List.perm_insertionSort lenGE m.masked_map).mem_iff.mp hkv)]
    rw [hfind]

/-- Witness for C5: with `/home/alice` registered as `[MASK0]`,
`mask_path("/home/alice/notes/x.txt")` yields `[MASK0]/notes/x.txt`, and the
non-descendant `/home/alicexyz` that shares the prefix string is not masked. -/
theorem C5_mask_longest_key_witness :
    mask_path wmOS wMasker (str "/home/alice/notes/x.txt") = str "[MASK0]/notes/x.txt" ∧
    mask_path wmOS wMasker (str "/home/alicexyz") = str "/home/alicexyz" := by
  constructor
  · have h := (C5_mask_longest_key wmOS wMasker (str "/home/alice/notes/x.txt") rfl rfl
      (by decide) (by decide) (by decide) (by decide)).1
      (str "/home/alice") (str "[MASK0]") (by decide) (by decide) (by decide)
    rw [h]; decide
  · exact (C5_mask_longest_key wmOS wMasker (str "/home/alicexyz") rfl rfl
      (by decide) (by decide) (by decide) (by decide)).2 (by decide)

theorem enum_snd_eq {α : Type} {l : List α} {x y : Nat × α} (hx : x ∈ l.enum)
    (hy : y ∈ l.enum) (h : x.1 = y.1) : x.2 = y.2 := by
  rcases List.mem_enumFrom hx with ⟨_, hx2, hx3⟩
  rcases List.mem_enumFrom hy with ⟨_, hy2, hy3⟩
  rw [hx3, hy3]
  simp [h]

theorem rbracket_facts : (']' : Char) ≠ '/' ∧ (']' : Char) ≠ '\\' := by decide

theorem cwd_pre_cancel {cwd a b : List Char} :
    ((cwd ++ '/' :: a) ++ ['/'] <+: (cwd ++ '/' :: b) ++ ['/']) ↔
      (a ++ ['/'] <+: b ++ ['/']) := by
  rw [show (cwd ++ '/' :: a) ++ ['/'] = cwd ++ ('/' :: (a ++ ['/'])) from by simp,
    show (cwd ++ '/' :: b) ++ ['/'] = cwd ++ ('/' :: (b ++ ['/'])) from by simp,
    append_pre_cancel]
  simp [List.cons_prefix_cons]

/-- C2: when masking is enabled in prefix mode, `mask_path` and `unmask_path` form a
round trip: `unmask_path (mask_path P) = P` for every real path `P` under a
registered sensitive prefix (`P` in canonical form, as produced by the engine), and
`mask_path (unmask_path X) = X` for the token-path `X = mask_path P` produced by the
current configuration.  The oracle hypotheses pin down `Path.resolve` on the strings
involved: `P` is canonical with no trailing separator, registered paths resolve
without trailing separators and idempotently, and relative strings (in particular
the token paths, which begin with `[`) resolve to `cwd ++ "/" ++ s`. -/
theorem C2_mask_roundtrip (os : OSModel) (cwd T : PyStr) (lf : List PyStr) (P : PyStr)
    (Hrel : ∀ s : PyStr, isAbsolute s = false → os.resolve s = cwd ++ '/' :: s)
    (HP : os.resolve P = P)
    (HPs : P.getLast? ≠ some '/') (HPb : P.getLast? ≠ some '\\')
    (Hkeys : ∀ s ∈ lf, (os.resolve s).getLast? ≠ some '/' ∧
      (os.resolve s).getLast? ≠ some '\\' ∧ os.resolve (os.resolve s) = os.resolve s)
    (Hmatch : ∃ kv ∈ (mkMasker os lf T .pfx true).masked_map,
      pathStartswith os kv.1 P = true) :
    unmask_path os (mkMasker os lf T .pfx true)
        (mask_path os (mkMasker os lf T .pfx true) P) = P ∧
    mask_path os (mkMasker os lf T .pfx true)
        (unmask_path os (mkMasker os lf T .pfx true)
          (mask_path os (mkMasker os lf T .pfx true) P))
      = mask_path os (mkMasker os lf T .pfx true) P := by
  have hmmv : (mkMasker os lf T .pfx true).masked_map = (create_masked_map os lf T .pfx).1 := rfl
  have hrmv : (mkMasker os lf T .pfx true).reversed_map = (create_masked_map os lf T .pfx).2 := rfl
  have habs : rstripSlash (os.resolve P) = P := by rw [HP]; exact rstripSlash_eq_self HPs
  have hResP : rstripSeps (os.resolve P) = P := by
    rw [HP, rstripSeps_eq_self HPs HPb]
  have hkeyfacts : ∀ kv ∈ (create_masked_map os lf T .pfx).1, os.resolve kv.1 = kv.1 ∧
      kv.1.getLast? ≠ some '/' ∧ kv.1.getLast? ≠ some '\\' := by
    intro kv hkv
    rcases (create_mm_key os T lf kv hkv).1 with ⟨s, hs, hk⟩
    rcases Hkeys s hs with ⟨k1, k2, k3⟩
    have hkey : keyOf os s = os.resolve s := rstripSlash_eq_self k1
    rw [hk, hkey]
    exact ⟨k3, k1, k2⟩
  have hsw : ∀ k, os.resolve k = k → k.getLast? ≠ some '/' → k.getLast? ≠ some '\\' →
      (pathStartswith os k P = true ↔ (k ++ ['/'] <+: P ++ ['/'])) := by
    intro k hk hk1 hk2
    unfold pathStartswith
    rw [hk, hResP, rstripSeps_eq_self hk1 hk2]
    exact ⟨fun h => List.isPrefixOf_iff_prefix.mp h, fun h => List.isPrefixOf_iff_prefix.mpr h⟩
  rw [hmmv] at Hmatch
  rcases Hmatch with ⟨kvm, hkvm_mem, hkvm_p⟩
  rcases hfind : (List.insertionSort lenGE (create_masked_map os lf T .pfx).1).find?
      (fun kv => pathStartswith os kv.1 P) with _ | kv0
  · exact absurd hkvm_p (List.find?_eq_none.mp hfind kvm
      ((List.perm_insertionSort lenGE _).symm.mem_iff.mp hkvm_mem))
  · have hkv0p : pathStartswith os kv0.1 P = true := by
      have h0 := List.find?_some hfind
      simpa using h0
    have hkv0mem : kv0 ∈ (create_masked_map os lf T .pfx).1 :=
      (List.perm_insertionSort lenGE _).mem_iff.mp (List.mem_of_find?_eq_some hfind)
    rcases hkeyfacts kv0 hkv0mem with ⟨hr0, h01, h02⟩
    have hslash : kv0.1 ++ ['/'] <+: P ++ ['/'] := (hsw kv0.1 hr0 h01 h02).mp hkv0p
    rcases pre_of_slash_pre h01 hslash with ⟨rest, hPk⟩
    have hrest : rest = [] ∨ rest.head? = some '/' := by
      have hslash2 := hslash
      rw [← hPk] at hslash2
      exact rest_head_slash hslash2
    have hmask : mask_path os (mkMasker os lf T .pfx true) P = kv0.2 ++ rest := by
      simp only [mask_path, mkMasker, Bool.not_true, Bool.false_eq_true, if_false]
      rw [habs, hfind]
      show replaceFirst kv0.1 kv0.2 P = kv0.2 ++ rest
      rw [replaceFirst_of_pre ⟨rest, hPk⟩, ← hPk, List.drop_left]
    -- the token behind kv0
    have hpair : (kv0.2, kv0.1) ∈ (create_masked_map os lf T .pfx).2 :=
      (create_mm_key os T lf kv0 hkv0mem).2
    rw [create_rm_closed os T lf] at hpair
    rcases List.mem_map.mp hpair with ⟨js, hjs_mem, hjs_eq⟩
    have ht : kv0.2 = maskTok T js.1 := by
      have := congrArg Prod.fst hjs_eq
      simpa using this.symm
    have hkk : kv0.1 = keyOf os js.2 := by
      have := congrArg Prod.snd hjs_eq
      simpa using this.symm
    -- properties of X := kv0.2 ++ rest
    have htne : kv0.2 ≠ [] := by rw [ht]; unfold maskTok; simp
    have hXrel : isAbsolute (kv0.2 ++ rest) = false := by
      rw [ht]
      unfold maskTok isAbsolute
      simp
    have hXlastP : rest ≠ [] → (kv0.2 ++ rest).getLast? = P.getLast? := by
      intro hne
      rw [getLast?_append_right hne, ← hPk, getLast?_append_right hne]
    have hXlast1 : (kv0.2 ++ rest).getLast? ≠ some '/' := by
      by_cases hne : rest = []
      · rw [hne, List.append_nil, ht, maskTok_getLast]
        exact fun h => rbracket_facts.1 (by injection h)
      · rw [hXlastP hne]
        exact HPs
    have hXlast2 : (kv0.2 ++ rest).getLast? ≠ some '\\' := by
      by_cases hne : rest = []
      · rw [hne, List.append_nil, ht, maskTok_getLast]
        exact fun h => rbracket_facts.2 (by injection h)
      · rw [hXlastP hne]
        exact HPb
    -- canonical form of a token-prefixed relative string under the oracle
    have hXres : os.resolve (kv0.2 ++ rest) = cwd ++ '/' :: (kv0.2 ++ rest) :=
      Hrel _ hXrel
    have hstripX : rstripSeps (os.resolve (kv0.2 ++ rest)) = cwd ++ '/' :: (kv0.2 ++ rest) := by
      rw [hXres]
      apply rstripSeps_eq_self
      · rw [show cwd ++ '/' :: (kv0.2 ++ rest) = cwd ++ ('/' :: (kv0.2 ++ rest)) from rfl,
          getLast?_append_right (by simp),
          show ('/' :: (kv0.2 ++ rest)) = ['/'] ++ (kv0.2 ++ rest) from rfl,
          getLast?_append_right (by simp [htne])]
        exact hXlast1
      · rw [show cwd ++ '/' :: (kv0.2 ++ rest) = cwd ++ ('/' :: (kv0.2 ++ rest)) from rfl,
          getLast?_append_right (by simp),
          show ('/' :: (kv0.2 ++ rest)) = ['/'] ++ (kv0.2 ++ rest) from rfl,
          getLast?_append_right (by simp [htne])]
        exact hXlast2
    have hstripTok : ∀ j : Nat, rstripSeps (os.resolve (maskTok T j)) = cwd ++ '/' :: maskTok T j := by
      intro j
      have hjrel : isAbsolute (maskTok T j) = false := by unfold maskTok isAbsolute; simp
      rw [Hrel _ hjrel]
      apply rstripSeps_eq_self
      · rw [show cwd ++ '/' :: maskTok T j = cwd ++ ('/' :: maskTok T j) from rfl,
          getLast?_append_right (by simp),
          show ('/' :: maskTok T j) = ['/'] ++ maskTok T j from rfl,
          getLast?_append_right (by unfold maskTok; simp), maskTok_getLast]
        exact fun h => rbracket_facts.1 (by injection h)
      · rw [show cwd ++ '/' :: maskTok T j = cwd ++ ('/' :: maskTok T j) from rfl,
          getLast?_append_right (by simp),
          show ('/' :: maskTok T j) = ['/'] ++ maskTok T j from rfl,
          getLast?_append_right (by unfold maskTok; simp), maskTok_getLast]
        exact fun h => rbracket_facts.2 (by injection h)
    -- unmask predicate characterization over the reversed map
    have hpred : ∀ j : Nat,
        (pathStartswith os (maskTok T j) (kv0.2 ++ rest) = true ↔ j = js.1) := by
      intro j
      unfold pathStartswith
      rw [hstripTok j, hstripX]
      constructor
      · intro h
        have h2 := List.isPrefixOf_iff_prefix.mp h
        have h3 := cwd_pre_cancel.mp h2
        rw [ht, List.append_assoc] at h3
        exact maskTok_pre_index h3
      · intro h
        subst h
        apply List.isPrefixOf_iff_prefix.mpr
        apply cwd_pre_cancel.mpr
        rw [ht]
        exact maskTok_self_pre hrest
    -- the reversed-map lookup finds exactly kv0's token
    have hfind2 : ((create_masked_map os lf T .pfx).2).find?
        (fun kv => pathStartswith os kv.1 (kv0.2 ++ rest)) = some (kv0.2, kv0.1) := by
      apply find?_eq_of_unique
      · rw [create_rm_closed os T lf]
        exact hpair
      · show pathStartswith os kv0.2 (kv0.2 ++ rest) = true
        have hp := (hpred js.1).mpr rfl
        rw [← ht] at hp
        exact hp
      · intro y hy hyp
        rw [create_rm_closed os T lf] at hy
        rcases List.mem_map.mp hy with ⟨ks, hks_mem, hks_eq⟩
        have hy1 : y.1 = maskTok T ks.1 := by
          have := congrArg Prod.fst hks_eq
          simpa using this.symm
        have hy2 : y.2 = keyOf os ks.2 := by
          have := congrArg Prod.snd hks_eq
          simpa using this.symm
        have hyp2 : pathStartswith os (maskTok T ks.1) (kv0.2 ++ rest) = true := by
          rw [← hy1]
          simpa using hyp
        have hji : ks.1 = js.1 := (hpred ks.1).mp hyp2
        have hsnd : ks.2 = js.2 := enum_snd_eq hks_mem hjs_mem hji
        have hy' : y = (maskTok T js.1, keyOf os js.2) := by
          have h1 : y.1 = maskTok T js.1 := by rw [hy1, hji]
          have h2 : y.2 = keyOf os js.2 := by rw [hy2, hsnd]
          exact Prod.ext h1 h2
        rw [hy', ← ht, ← hkk]
    have hunmask : unmask_path os (mkMasker os lf T .pfx true) (kv0.2 ++ rest) = P := by
      simp only [unmask_path, mkMasker, Bool.not_true, Bool.false_eq_true, if_false]
      rw [hfind2]
      show replaceFirst kv0.2 kv0.1 (kv0.2 ++ rest) = P
      rw [replaceFirst_of_pre ⟨rest, rfl⟩, List.drop_left, hPk]
    constructor
    · rw [hmask, hunmask]
    · rw [hmask, hunmask, hmask]

/-- Witness for C2: the concrete round trip on `/home/alice/notes/x.txt` with
`/home/alice` registered and cwd `/cwd`. -/
theorem C2_mask_roundtrip_witness :
    unmask_path wmOS wMasker (mask_path wmOS wMasker (str "/home/alice/notes/x.txt"))
      = str "/home/alice/notes/x.txt" ∧
    mask_path wmOS wMasker (unmask_path wmOS wMasker
      (mask_path wmOS wMasker (str "/home/alice/notes/x.txt")))
      = mask_path wmOS wMasker (str "/home/alice/notes/x.txt") :=
  C2_mask_roundtrip wmOS (str "/cwd") (str "MASK") [str "/home/alice"]
    (str "/home/alice/notes/x.txt")
    (fun s hs => by show wResolve s = _; unfold wResolve; rw [if_neg (by simp [hs])])
    rfl (by decide) (by decide) (by decide) (by decide)

/-- Counterexample to C3 as stated: with a non-existent base path `/x` and the
invalid regex `(` among the include patterns, the call fails with
`FileNotFoundError` — not `InvalidPattern` — and the filesystem has already been
touched (the `os.path.exists` stat on the base path precedes pattern compilation). -/
theorem C3_counterexample :
    (search_file_name_check wC3OS (mkTool wC3OS [] [] true) [str "("] none
      (some (str "/x"))).2 = .error .fileNotFound ∧
    (search_file_name_check wC3OS (mkTool wC3OS [] [] true) [str "("] none
      (some (str "/x"))).1 = [.existsChk (str "/x")] ∧
    wC3OS.reValid (str "(") = false ∧
    PyErr.fileNotFound ≠ .invalidPattern (str "regex_pattern") := by decide

/-- C3 (amended): if the base path is non-empty and exists, an invalid regex in
either the include or the exclude pattern set fails the whole `search_file_name`
call with the `InvalidPattern` `ValueError` before the base directory is resolved
and before any directory listing — the only filesystem access performed first is
the `os.path.exists` stat on the base path. -/
theorem C3_invalid_regex_fail_fast (os : OSModel) (t : Tool) (pats : List PyStr)
    (expats : Option (List PyStr)) (bp : PyStr)
    (hbp : bp ≠ []) (hex : os.fsExists bp = true)
    (hbad : pats.all os.reValid = false ∨
      (pats.all os.reValid = true ∧ (expats.getD []).all os.reValid = false)) :
    (∃ which, (search_file_name_check os t pats expats (some bp)).2
      = .error (.invalidPattern which)) ∧
    (search_file_name_check os t pats expats (some bp)).1 = [.existsChk bp] := by
  rcases hbad with h | ⟨h1, h2⟩
  · constructor
    · exact ⟨str "regex_pattern", by simp [search_file_name_check, hbp, hex, h]⟩
    · simp [search_file_name_check, hbp, hex, h]
  · constructor
    · exact ⟨str "exclude_regex_patterns", by simp [search_file_name_check, hbp, hex, h1, h2]⟩
    · simp [search_file_name_check, hbp, hex, h1, h2]

/-- Witness for the amended C3: an existing base path `/x` with the invalid
include pattern `(` fails with `InvalidPattern`, having stat-ed only the base. -/
theorem C3_invalid_regex_fail_fast_witness :
    (∃ which, (search_file_name_check wC3bOS (mkTool wC3bOS [] [] true) [str "("] none
      (some (str "/x"))).2 = .error (.invalidPattern which)) ∧
    (search_file_name_check wC3bOS (mkTool wC3bOS [] [] true) [str "("] none
      (some (str "/x"))).1 = [.existsChk (str "/x")] :=
  C3_invalid_regex_fail_fast wC3bOS (mkTool wC3bOS [] [] true) [str "("] none
    (str "/x") (by decide) (by decide) (Or.inl (by decide))

theorem contextBlocksGo_eq (mt : PyStr → Bool) (lines : List PyStr) (ctx : Nat) :
    ∀ l : List (Nat × PyStr), contextBlocksGo mt lines ctx l
      = (l.filter fun x => mt x.2).map (fun x => blockAt lines ctx x.1) := by
  intro l
  induction l with
  | nil => rfl
  | cons x rest ih =>
    rcases x with ⟨idx, line⟩
    by_cases hm : mt line = true
    · simp [contextBlocksGo, List.filter_cons, hm, ih]
    · simp [contextBlocksGo, List.filter_cons, hm, ih]

/-- C6: in the content search, each matching line at index `idx` produces its own
context block `"".join(lines[max(0, idx - ctx) : min(len(lines), idx + ctx + 1)])`,
and the emitted block list is exactly the map over the matching lines in order:
blocks with overlapping ranges are neither merged nor deduplicated, and the number
of blocks equals the number of matching lines. -/
theorem C6_context_blocks (mt : PyStr → Bool) (lines : List PyStr) (ctx : Nat) :
    contextBlocks mt lines ctx
      = (lines.enum.filter fun x => mt x.2).map
          (fun x => List.join ((lines.take (min lines.length (x.1 + ctx + 1))).drop
            (max (0 : Int) ((x.1 : Int) - (ctx : Int))).toNat)) ∧
    (contextBlocks mt lines ctx).length = (lines.enum.filter fun x => mt x.2).length := by
  have hmain := contextBlocksGo_eq mt lines ctx lines.enum
  constructor
  · rw [contextBlocks, hmain]
    apply List.map_congr_left
    intro x _
    unfold blockAt
    have hidx : (max (0 : Int) ((x.1 : Int) - (ctx : Int))).toNat = x.1 - ctx := by omega
    rw [hidx]
  · rw [contextBlocks, hmain, List.length_map]

theorem resolveCore_error_kind (os : OSModel) (t : Tool) (strict : Bool) (rel : PyStr)
    (e : PyErr) (h : resolveCore os t strict rel = .error e) :
    e = .fileNotFound ∨ e = .permissionDenied := by
  simp only [resolveCore] at h
  split at h
  · split at h
    · injection h with h; exact Or.inl h.symm
    · cases h
  · split at h
    · split at h
      · injection h with h; exact Or.inl h.symm
      · cases h
    · split at h
      · split at h
        · injection h with h; exact Or.inr h.symm
        · cases h
      · split at h
        · split at h
          · injection h with h; exact Or.inr h.symm
          · cases h
        · split at h
          · split at h
            · injection h with h; exact Or.inr h.symm
            · cases h
          · cases h

theorem resolvePathE_error_kind (os : OSModel) (t : Tool) (strict : Bool) (rel : PyStr)
    (e : PyErr) (hne : t.allowed_paths ≠ [])
    (h : resolvePathE os t strict rel = .error e) :
    e = .fileNotFound ∨ e = .permissionDenied := by
  unfold resolvePathE at h
  split at h
  · cases hl : t.allowed_paths with
    | nil => exact absurd hl hne
    | cons a rest => rw [hl] at h; exact resolveCore_error_kind os t strict a e h
  · exact resolveCore_error_kind os t strict rel e h

theorem is_allowed_ok (os : OSModel) (t : Tool) (p : PyStr) (hne : t.allowed_paths ≠ []) :
    is_allowed_pathE os t p = .ok (is_allowed_total os t p) := by
  unfold is_allowed_total
  rcases hres : is_allowed_pathE os t p with e | b
  · exfalso
    unfold is_allowed_pathE at hres
    split at hres
    · cases hres
    · split at hres
      · cases hres
      · rcases hrr : resolvePathE os t true p with e2 | v
        · rw [hrr] at hres
          rcases resolvePathE_error_kind os t true p e2 hne hrr with h | h <;>
            (subst h; cases hres)
        · rw [hrr] at hres
          cases hres
  · rfl

theorem sub_get_path_type_ok (os : OSModel) (t : Tool) (p : PyStr)
    (hne : t.allowed_paths ≠ []) :
    sub_get_path_type os t p = .ok (classifyTotal os t p) := by
  unfold sub_get_path_type classifyTotal
  by_cases hex : os.fsExists p = true
  · rw [is_allowed_ok os t p hne]
    simp only [hex, Bool.not_true, Bool.false_eq_true, if_false]
    split_ifs <;> rfl
  · rw [Bool.not_eq_true] at hex
    simp only [hex, Bool.not_false, if_true]

/-- C9: for a tool with at least one allowed root, `get_path_type` never raises and
returns exactly one `(path, kind)` pair per input in input order, where the kind is
`"not found"` for non-existent paths (the existence check precedes and bypasses the
sandbox check), `"[Permission Denied]"` for existing paths failing
`is_allowed_path`, and otherwise one of `"directory"`, `"symbolic link"`, `"file"`,
`"unknown"`. -/
theorem C9_get_path_type (os : OSModel) (t : Tool) (paths : List PyStr)
    (hne : t.allowed_paths ≠ []) :
    get_path_type os t paths = .ok (paths.map fun p => (p, classifyTotal os t p)) ∧
    (∀ p : PyStr, os.fsExists p = false → classifyTotal os t p = str "not found") ∧
    (∀ p : PyStr, os.fsExists p = true → is_allowed_total os t p = false →
      classifyTotal os t p = str "[Permission Denied]") ∧
    (∀ p : PyStr, os.fsExists p = true → is_allowed_total os t p = true →
      classifyTotal os t p = str "directory" ∨ classifyTotal os t p = str "symbolic link" ∨
      classifyTotal os t p = str "file" ∨ classifyTotal os t p = str "unknown") := by
  refine ⟨?_, ?_, ?_, ?_⟩
  · induction paths with
    | nil => rfl
    | cons p rest ih =>
      simp only [get_path_type]
      rw [sub_get_path_type_ok os t p hne, ih]
      rfl
  · intro p hp
    simp [classifyTotal, hp]
  · intro p hp ha
    simp [classifyTotal, hp, ha]
  · intro p hp ha
    simp only [classifyTotal, hp, ha, Bool.not_true, Bool.false_eq_true, if_false]
    split_ifs <;> tauto

/-- Witness for C9: on the concrete filesystem, a file, a missing path and an
excluded path classify as `file`, `not found` and `[Permission Denied]`. -/
theorem C9_get_path_type_witness :
    get_path_type wOS wTool [str "/r/a.txt", str "/nope", str "/r/sec"]
      = .ok [(str "/r/a.txt", str "file"), (str "/nope", str "not found"),
          (str "/r/sec", str "[Permission Denied]")] := by
  have h := (C9_get_path_type wOS wTool [str "/r/a.txt", str "/nope", str "/r/sec"]
    (by decide)).1
  rw [h]
  decide

/-! ### Dict lemmas for the batch operations -/

theorem find?_append_none {α : Type} {p : α → Bool} :
    ∀ {l1 : List α}, l1.find? p = none → ∀ l2 : List α, (l1 ++ l2).find? p = l2.find? p := by
  intro l1
  induction l1 with
  | nil => intro _ l2; rfl
  | cons a t ih =>
    intro h l2
    by_cases ha : p a = true
    · rw [List.find?_cons_of_pos _ ha] at h; cases h
    · rw [List.find?_cons_of_neg _ (by simpa using ha)] at h
      rw [List.cons_append, List.find?_cons_of_neg _ (by simpa using ha)]
      exact ih h l2

theorem find?_append_some {α : Type} {p : α → Bool} {x : α} :
    ∀ {l1 : List α}, l1.find? p = some x → ∀ l2 : List α, (l1 ++ l2).find? p = some x := by
  intro l1
  induction l1 with
  | nil => intro h; cases h
  | cons a t ih =>
    intro h l2
    by_cases ha : p a = true
    · rw [List.find?_cons_of_pos _ ha] at h
      rw [List.cons_append, List.find?_cons_of_pos _ ha]
      exact h
    · rw [List.find?_cons_of_neg _ (by simpa using ha)] at h
      rw [List.cons_append, List.find?_cons_of_neg _ (by simpa using ha)]
      exact ih h l2

theorem find?_map_overwrite {α β : Type} [DecidableEq α] (k : α) (v : β) :
    ∀ l : List (α × β), (l.any fun kv => decide (kv.1 = k)) = true →
    (l.map fun kv => if kv.1 = k then (k, v) else kv).find? (fun kv => decide (kv.1 = k))
      = some (k, v) := by
  intro l
  induction l with
  | nil => intro h; cases h
  | cons a t ih =>
    intro h
    by_cases ha : a.1 = k
    · simp only [List.map_cons, if_pos ha]
      rw [List.find?_cons_of_pos _ (by simp)]
    · simp only [List.map_cons, if_neg ha]
      rw [List.find?_cons_of_neg _ (by simpa using ha)]
      apply ih
      rcases List.any_eq_true.mp h with ⟨x, hx, hxk⟩
      cases List.mem_cons.mp hx with
      | inl he => subst he; exact absurd (of_decide_eq_true hxk) ha
      | inr he => exact List.any_eq_true.mpr ⟨x, he, hxk⟩

theorem find?_map_overwrite_other {α β : Type} [DecidableEq α] {k k' : α} (hk : k' ≠ k) (v : β) :
    ∀ l : List (α × β),
    (l.map fun kv => if kv.1 = k then (k, v) else kv).find? (fun kv => decide (kv.1 = k'))
      = l.find? (fun kv => decide (kv.1 = k')) := by
  intro l
  induction l with
  | nil => rfl
  | cons a t ih =>
    simp only [List.map_cons]
    by_cases ha : a.1 = k
    · rw [if_pos ha]
      rw [List.find?_cons_of_neg _ (by simp [Ne.symm hk]),
        List.find?_cons_of_neg _ (by simp [ha, Ne.symm hk])]
      exact ih
    · rw [if_neg ha]
      by_cases ha' : a.1 = k'
      · rw [List.find?_cons_of_pos _ (by simp [ha']), List.find?_cons_of_pos _ (by simp [ha'])]
      · rw [List.find?_cons_of_neg _ (by simp [ha']), List.find?_cons_of_neg _ (by simp [ha'])]
        exact ih

theorem lookup?_dictInsert_self {α β : Type} [DecidableEq α] (l : List (α × β)) (k : α)
    (v : β) : lookup? (dictInsert l k v) k = some v := by
  unfold dictInsert lookup?
  by_cases hex : (l.any fun kv => decide (kv.1 = k)) = true
  · rw [if_pos hex, find?_map_overwrite k v l hex]
  · rw [if_neg hex]
    have hl : l.find? (fun kv => decide (kv.1 = k)) = none := by
      rw [List.find?_eq_none]
      intro x hx hxk
      exact hex (List.any_eq_true.mpr ⟨x, hx, hxk⟩)
    rw [find?_append_none hl, List.find?_cons_of_pos _ (by simp)]

theorem lookup?_dictInsert_other {α β : Type} [DecidableEq α] (l : List (α × β)) (k k' : α)
    (v : β) (hk : k' ≠ k) : lookup? (dictInsert l k v) k' = lookup? l k' := by
  unfold dictInsert lookup?
  by_cases hex : (l.any fun kv => decide (kv.1 = k)) = true
  · rw [if_pos hex, find?_map_overwrite_other hk v l]
  · rw [if_neg hex]
    rcases hl : l.find? (fun kv => decide (kv.1 = k')) with _ | x
    · rw [find?_append_none hl, List.find?_cons_of_neg _ (by simp [Ne.symm hk]), hl]
      rfl
    · rw [find?_append_some hl, hl]

theorem resolveCore_false_no_error (os : OSModel) (t : Tool) (rel : PyStr) (e : PyErr)
    (h : resolveCore os t false rel = .error e) : False := by
  simp only [resolveCore, Bool.false_eq_true, if_false] at h
  split at h
  · cases h
  · split at h
    · cases h
    · split at h
      · cases h
      · split at h
        · cases h
        · split at h
          · cases h
          · cases h

theorem resolvePathE_false_ok (os : OSModel) (t : Tool) (p : PyStr)
    (hne : t.allowed_paths ≠ []) :
    resolvePathE os t false p = .ok (resolveKey os t p) := by
  unfold resolveKey
  rcases h : resolvePathE os t false p with e | rp
  · exfalso
    unfold resolvePathE at h
    split at h
    · cases hl : t.allowed_paths with
      | nil => exact hne hl
      | cons a rest => rw [hl] at h; exact resolveCore_false_no_error os t a e h
    · exact resolveCore_false_no_error os t p e h
  · rfl

theorem read_files_step (os : OSModel) (t : Tool) (p : PyStr) (rest : List PyStr)
    (acc : List (Option PyStr × PyStr)) (hne : t.allowed_paths ≠ []) :
    read_files os t (p :: rest) acc
      = read_files os t rest (dictInsert acc (resolveKey os t p)
          (readOutcomeFor os t (resolveKey os t p))) := by
  have hres := resolvePathE_false_ok os t p hne
  simp only [read_files, hres]
  rcases hrk : resolveKey os t p with _ | r
  · rfl
  · rw [show is_allowed_optE os t (some r) = is_allowed_pathE os t r from rfl,
      is_allowed_ok os t r hne]
    by_cases hat : is_allowed_total os t r = true
    · simp only [hat, Bool.not_true, Bool.false_eq_true, if_false]
      rcases hrf : os.readFile r with c | _ | _ | msg | msg <;>
        simp [readOutcomeFor, hat, hrf]
    · rw [Bool.not_eq_true] at hat
      simp only [hat, Bool.not_false, if_true]
      simp [readOutcomeFor, hat]

theorem read_files_spec (os : OSModel) (t : Tool) (hne : t.allowed_paths ≠ []) :
    ∀ (paths : List PyStr) (acc : List (Option PyStr × PyStr)),
    (∀ k v, lookup? acc k = some v → v = readOutcomeFor os t k) →
    ∃ res, read_files os t paths acc = .ok res ∧
      (∀ k v, lookup? res k = some v → v = readOutcomeFor os t k) ∧
      (∀ k, lookup? acc k ≠ none → lookup? res k ≠ none) ∧
      (∀ p ∈ paths, lookup? res (resolveKey os t p) ≠ none) := by
  intro paths
  induction paths with
  | nil =>
    intro acc hg
    exact ⟨acc, rfl, hg, fun _ h => h, by simp⟩
  | cons p rest ih =>
    intro acc hg
    rw [read_files_step os t p rest acc hne]
    have hgood' : ∀ k v, lookup? (dictInsert acc (resolveKey os t p)
        (readOutcomeFor os t (resolveKey os t p))) k = some v →
        v = readOutcomeFor os t k := by
      intro k v hkv
      by_cases hk : k = resolveKey os t p
      · subst hk
        rw [lookup?_dictInsert_self] at hkv
        injection hkv with hkv
        exact hkv.symm
      · rw [lookup?_dictInsert_other _ _ _ _ hk] at hkv
        exact hg k v hkv
    rcases ih _ hgood' with ⟨res, hrun, hgood, hmono, hall⟩
    refine ⟨res, hrun, hgood, ?_, ?_⟩
    · intro k hk
      apply hmono
      by_cases hkp : k = resolveKey os t p
      · subst hkp
        rw [lookup?_dictInsert_self]
        simp
      · rw [lookup?_dictInsert_other _ _ _ _ hkp]
        exact hk
    · intro q hq
      cases List.mem_cons.mp hq with
      | inl he =>
        subst he
        apply hmono
        rw [lookup?_dictInsert_self]
        simp
      | inr he => exact hall q he

theorem sc_step (os : OSModel) (t : Tool) (pats : List PyStr) (ctx : Nat)
    (tick : Nat → Bool) (p : PyStr) (rest : List PyStr) (n : Nat)
    (acc : List (Option PyStr × SCVal)) (hne : t.allowed_paths ≠ []) :
    search_file_contents_go os t pats ctx (-1) tick (p :: rest) n acc
      = match scOutcomeFor os t pats ctx (resolveKey os t p) with
        | some v => search_file_contents_go os t pats ctx (-1) tick rest (n + 1)
            (dictInsert acc (resolveKey os t p) v)
        | none => search_file_contents_go os t pats ctx (-1) tick rest (n + 1) acc := by
  have hres := resolvePathE_false_ok os t p hne
  simp only [search_file_contents_go, hres,
    if_neg (fun h => absurd h.1 (by norm_num) : ¬((-1 : Int) ≥ 0 ∧ tick n = true))]
  rcases hrk : resolveKey os t p with _ | r
  · rfl
  · rw [show is_allowed_optE os t (some r) = is_allowed_pathE os t r from rfl,
      is_allowed_ok os t r hne]
    by_cases hat : is_allowed_total os t r = true
    · simp only [hat, Bool.not_true, Bool.false_eq_true, if_false]
      rcases hrf : os.readFile r with c | _ | _ | msg | msg
      · simp only [scOutcomeFor, hat, Bool.not_true, Bool.false_eq_true, if_false, hrf]
        by_cases hm : contextBlocks
            (fun line => pats.any fun pt => os.reSearch pt line) (pyReadlines c) ctx = []
        · simp [hm]
        · simp [hm]
      · simp [scOutcomeFor, hat, hrf]
      · simp [scOutcomeFor, hat, hrf]
      · simp [scOutcomeFor, hat, hrf]
      · simp [scOutcomeFor, hat, hrf]
    · rw [Bool.not_eq_true] at hat
      simp only [hat, Bool.not_false, if_true]
      simp [scOutcomeFor, hat]

theorem sc_spec (os : OSModel) (t : Tool) (pats : List PyStr) (ctx : Nat)
    (tick : Nat → Bool) (hne : t.allowed_paths ≠ []) :
    ∀ (paths : List PyStr) (n : Nat) (acc : List (Option PyStr × SCVal)),
    (∀ k v, lookup? acc k = some v → scOutcomeFor os t pats ctx k = some v) →
    ∃ res, search_file_contents_go os t pats ctx (-1) tick paths n acc = .ok (res, false) ∧
      (∀ k v, lookup? res k = some v → scOutcomeFor os t pats ctx k = some v) ∧
      (∀ k, lookup? acc k ≠ none → lookup? res k ≠ none) ∧
      (∀ p ∈ paths, (scOutcomeFor os t pats ctx (resolveKey os t p)).isSome →
        lookup? res (resolveKey os t p) ≠ none) := by
  intro paths
  induction paths with
  | nil =>
    intro n acc hg
    exact ⟨acc, rfl, hg, fun _ h => h, by simp⟩
  | cons p rest ih =>
    intro n acc hg
    rw [sc_step os t pats ctx tick p rest n acc hne]
    rcases hout : scOutcomeFor os t pats ctx (resolveKey os t p) with _ | v
    · rcases ih (n + 1) acc hg with ⟨res, hrun, hgood, hmono, hall⟩
      refine ⟨res, hrun, hgood, hmono, ?_⟩
      intro q hq
      cases List.mem_cons.mp hq with
      | inl he =>
        subst he
        intro hs
        rw [hout] at hs
        cases hs
      | inr he => exact hall q he
    · have hgood' : ∀ k v', lookup? (dictInsert acc (resolveKey os t p) v) k = some v' →
          scOutcomeFor os t pats ctx k = some v' := by
        intro k v' hkv
        by_cases hk : k = resolveKey os t p
        · subst hk
          rw [lookup?_dictInsert_self] at hkv
          injection hkv with hkv
          rw [hout, hkv]
        · rw [lookup?_dictInsert_other _ _ _ _ hk] at hkv
          exact hg k v' hkv
      rcases ih (n + 1) _ hgood' with ⟨res, hrun, hgood, hmono, hall⟩
      refine ⟨res, hrun, hgood, ?_, ?_⟩
      · intro k hk
        apply hmono
        by_cases hkp : k = resolveKey os t p
        · subst hkp
          rw [lookup?_dictInsert_self]
          simp
        · rw [lookup?_dictInsert_other _ _ _ _ hkp]
          exact hk
      · intro q hq
        cases List.mem_cons.mp hq with
        | inl he =>
          subst he
          intro _
          apply hmono
          rw [lookup?_dictInsert_self]
          simp
        | inr he => exact hall q he

/-- Counterexample to C4 as stated: with allowed root `/r` and two distinct
non-existent input paths, `_resolve_path(strict=False)` returns `None` for both, so
both failures collapse into a single result slot keyed by `None` — not one slot per
item keyed by that file's path — and the placeholder is `[Permission denied]` rather
than a not-found message. -/
theorem C4_counterexample :
    read_files wC4OS wC4Tool [str "/r/a", str "/r/b"] []
      = .ok [(none, str "[Permission denied]")] := by decide

/-- C4 (amended): for a tool with at least one allowed root and valid include
patterns, `read_files` and `search_file_contents` (with no time limit) never raise:
every per-item failure is captured as a descriptive placeholder string in the
result dict.  The slot is keyed by the item's `_resolve_path(strict=False)` output,
so items that resolve successfully each occupy their own slot keyed by the resolved
path, while all items that fail to resolve share one slot keyed by `None` holding
`[Permission denied]`.  In the content search, a readable file with no matching
lines is absent from the results. -/
theorem C4_batch_error_capture (os : OSModel) (t : Tool) (paths pats : List PyStr)
    (ctx : Nat) (tick : Nat → Bool)
    (hne : t.allowed_paths ≠ []) (hpats : pats.all os.reValid = true) :
    (∃ res, read_files os t paths [] = .ok res ∧
      ∀ p ∈ paths, lookup? res (resolveKey os t p)
        = some (readOutcomeFor os t (resolveKey os t p))) ∧
    (∃ res, search_file_contents os t paths pats ctx (-1) tick = .ok (res, false) ∧
      ∀ p ∈ paths, lookup? res (resolveKey os t p)
        = scOutcomeFor os t pats ctx (resolveKey os t p)) := by
  constructor
  · rcases read_files_spec os t hne paths [] (by intro k v h; cases h) with
      ⟨res, hrun, hgood, _, hall⟩
    refine ⟨res, hrun, ?_⟩
    intro p hp
    rcases hl : lookup? res (resolveKey os t p) with _ | v
    · exact absurd hl (hall p hp)
    · rw [hgood _ v hl]
  · rcases sc_spec os t pats ctx tick hne paths 0 [] (by intro k v h; cases h) with
      ⟨res, hrun, hgood, _, hall⟩
    refine ⟨res, ?_, ?_⟩
    · unfold search_file_contents
      rw [hpats]
      simpa using hrun
    · intro p hp
      rcases hout : scOutcomeFor os t pats ctx (resolveKey os t p) with _ | v
      · rcases hl : lookup? res (resolveKey os t p) with _ | v'
        · rfl
        · have := hgood _ v' hl
          rw [hout] at this
          cases this
      · rcases hl : lookup? res (resolveKey os t p) with _ | v'
        · exfalso
          exact (hall p hp (by rw [hout]; rfl)) hl
        · have := hgood _ v' hl
          rw [hout] at this
          injection this with this
          rw [this]

/-- Witness for the amended C4: one readable file and one missing file; the
readable one is keyed by its resolved path with its contents, the missing one
lands in the `None` slot with `[Permission denied]`, and nothing is raised. -/
theorem C4_batch_error_capture_witness :
    (∃ res, read_files wC4OS wC4Tool [str "/r/ok.txt", str "/r/missing"] [] = .ok res ∧
      ∀ p ∈ [str "/r/ok.txt", str "/r/missing"], lookup? res (resolveKey wC4OS wC4Tool p)
        = some (readOutcomeFor wC4OS wC4Tool (resolveKey wC4OS wC4Tool p))) ∧
    (∃ res, search_file_contents wC4OS wC4Tool [str "/r/ok.txt", str "/r/missing"]
        [str "h"] 0 (-1) (fun _ => false) = .ok (res, false) ∧
      ∀ p ∈ [str "/r/ok.txt", str "/r/missing"],
        lookup? res (resolveKey wC4OS wC4Tool p)
          = scOutcomeFor wC4OS wC4Tool [str "h"] 0 (resolveKey wC4OS wC4Tool p)) :=
  C4_batch_error_capture wC4OS wC4Tool [str "/r/ok.txt", str "/r/missing"] [str "h"] 0
    (fun _ => false) (by decide) (by decide)

/-- C1: every successful `_resolve_path` result is the fully symlink-expanded canonical
form (it is an output of `resolve`, hence a fixed point of canonicalization), it is
equal to or a separator-bounded descendant of at least one allowed root, and it is not
equal to or a descendant of any excluded path.  Because the checks are performed on the
canonical form, a path reached via a symlink whose target lies outside the allowed
roots fails the containment check and is denied. -/
theorem C1_resolve_containment (os : OSModel) (allowed exclude : List PyStr)
    (hide strict : Bool) (p r : PyStr)
    (Hidem : ∀ s, os.resolve (os.resolve s) = os.resolve s)
    (Hok : resolvePathE os (mkTool os allowed exclude hide) strict p = .ok (some r)) :
    (∃ c, r = os.resolve c) ∧ os.resolve r = r ∧
    (∃ root ∈ (mkTool os allowed exclude hide).allowed_paths,
      rstripSeps root ++ ['/'] <+: rstripSeps r ++ ['/']) ∧
    (∀ ex ∈ (mkTool os allowed exclude hide).exclude_paths,
      ¬ (rstripSeps ex ++ ['/'] <+: rstripSeps r ++ ['/'])) := by
  have Hcore : ∃ rel, resolveCore os (mkTool os allowed exclude hide) strict rel
      = .ok (some r) := by
    unfold resolvePathE at Hok
    split at Hok
    · cases hl : (mkTool os allowed exclude hide).allowed_paths with
      | nil => rw [hl] at Hok; cases Hok
      | cons a rest => rw [hl] at Hok; exact ⟨a, Hok⟩
    · exact ⟨p, Hok⟩
  rcases Hcore with ⟨rel, Hcore⟩
  rcases resolveCore_ok_some os _ strict _ r Hcore with ⟨⟨c, hc⟩, hany, hnone⟩
  have hrfix : os.resolve r = r := by rw [hc]; exact Hidem c
  refine ⟨⟨c, hc⟩, hrfix, ?_, ?_⟩
  · rcases List.any_eq_true.mp hany with ⟨root, hmem, hsw⟩
    refine ⟨root, hmem, ?_⟩
    have hrootfix : os.resolve root = root := mem_cleanup_resolve_fixed os Hidem allowed root hmem
    unfold pathStartswith at hsw
    rw [hrootfix, hrfix] at hsw
    exact List.isPrefixOf_iff_prefix.mp hsw
  · intro ex hmem hsw
    have hexfix : os.resolve ex = ex := mem_cleanup_resolve_fixed os Hidem exclude ex hmem
    have hne := List.any_eq_false.mp hnone ex hmem
    unfold pathStartswith at hne
    rw [hexfix, hrfix] at hne
    exact hne (List.isPrefixOf_iff_prefix.mpr hsw)

namespace Walk

theorem popQ_mem {bfs : Bool} {q : List (Seg × Nat)} {x : Seg × Nat}
    {q' : List (Seg × Nat)} (h : popQ bfs q = some (x, q')) :
    ∀ y, y ∈ q ↔ y = x ∨ y ∈ q' := by
  cases q with
  | nil => cases h
  | cons a as =>
    cases bfs with
    | true =>
      have h' : (a, as) = (x, q') := Option.some.inj h
      injection h' with h1 h2
      subst h1
      subst h2
      intro y
      exact List.mem_cons
    | false =>
      have h' : ((a :: as).getLast (by simp), (a :: as).dropLast) = (x, q') :=
        Option.some.inj h
      injection h' with h1 h2
      subst h1
      subst h2
      intro y
      conv_lhs => rw [← @List.dropLast_append_getLast _ (a :: as) (by simp)]
      rw [List.mem_append, List.mem_singleton]
      tauto

theorem popQ_nil_of_none {bfs : Bool} {q : List (Seg × Nat)} (h : popQ bfs q = none) :
    q = [] := by
  cases q with
  | nil => rfl
  | cons a as => cases bfs <;> simp [popQ] at h

theorem popQ_singleton (bfs : Bool) (x : Seg × Nat) : popQ bfs [x] = some (x, []) := by
  cases bfs <;> rfl

theorem wfChildren_mem : ∀ {cs : List (Name × FSEntry)}, wfChildren cs = true →
    ∀ c ∈ cs, c.2.wf = true := by
  intro cs
  induction cs with
  | nil => intro _ c hc; cases hc
  | cons c0 cs ih =>
    intro h c hc
    unfold wfChildren at h
    rw [Bool.and_eq_true] at h
    cases List.mem_cons.mp hc with
    | inl he => subst he; exact h.1
    | inr he => exact ih h.2 c he

theorem wf_dir {cs : List (Name × FSEntry)} (h : (FSEntry.dir cs).wf = true) :
    (cs.map Prod.fst).Nodup ∧ ∀ c ∈ cs, c.2.wf = true := by
  unfold FSEntry.wf at h
  rw [Bool.and_eq_true] at h
  exact ⟨of_decide_eq_true h.1, wfChildren_mem h.2⟩

theorem lookupChild_mem : ∀ {cs : List (Name × FSEntry)} {n : Name} {c : FSEntry},
    lookupChild n cs = some c → (n, c) ∈ cs := by
  intro cs
  induction cs with
  | nil => intro n c h; cases h
  | cons c0 cs ih =>
    intro n c h
    unfold lookupChild at h
    split at h
    · injection h with h
      rename_i heq
      have : (n, c) = c0 := by
        rcases c0 with ⟨m, t⟩
        simp only at heq h
        rw [← heq, ← h]
      rw [this]
      exact List.mem_cons_self _ _
    · exact List.mem_cons_of_mem _ (ih h)

theorem lookupChild_of_mem : ∀ {cs : List (Name × FSEntry)} {n : Name} {c : FSEntry},
    (cs.map Prod.fst).Nodup → (n, c) ∈ cs → lookupChild n cs = some c := by
  intro cs
  induction cs with
  | nil => intro n c _ h; cases h
  | cons c0 cs ih =>
    intro n c hnd hm
    rw [List.map_cons, List.nodup_cons] at hnd
    cases List.mem_cons.mp hm with
    | inl he =>
      unfold lookupChild
      rw [if_pos (by rw [← he])]
      rw [← he]
    | inr he =>
      unfold lookupChild
      rw [if_neg ?_]
      · exact ih hnd.2 he
      · intro hc
        apply hnd.1
        rw [hc]
        exact List.mem_map.mpr ⟨(n, c), he, rfl⟩

theorem find_nil (fs : FSEntry) : fs.find [] = some fs := by
  cases fs <;> rfl

theorem find_cons (cs : List (Name × FSEntry)) (n : Name) (rest : Seg) :
    (FSEntry.dir cs).find (n :: rest) = (lookupChild n cs).bind (fun c => c.find rest) := by
  show (match lookupChild n cs with
    | some c => FSEntry.find c rest
    | none => none) = (lookupChild n cs).bind (fun c => FSEntry.find c rest)
  cases lookupChild n cs <;> rfl

theorem find_append (e : Seg) : ∀ (d : Seg) (fs : FSEntry),
    fs.find (d ++ e) = (fs.find d).bind (fun t => t.find e) := by
  intro d
  induction d with
  | nil => intro fs; rw [List.nil_append, find_nil]; rfl
  | cons n d' ih =>
    intro fs
    cases fs with
    | file => rfl
    | other => rfl
    | dir cs =>
      rw [List.cons_append, find_cons, find_cons]
      cases lookupChild n cs with
      | none => rfl
      | some c => exact ih c

theorem wf_find : ∀ (d : Seg) (fs : FSEntry), fs.wf = true →
    ∀ {t : FSEntry}, fs.find d = some t → t.wf = true := by
  intro d
  induction d with
  | nil =>
    intro fs hwf t ht
    rw [find_nil] at ht
    injection ht with ht
    rw [← ht]
    exact hwf
  | cons n d' ih =>
    intro fs hwf t ht
    cases fs with
    | file => cases ht
    | other => cases ht
    | dir cs =>
      rw [find_cons] at ht
      rcases hl : lookupChild n cs with _ | c
      · rw [hl] at ht; cases ht
      · rw [hl] at ht
        exact ih c ((wf_dir hwf).2 (n, c) (lookupChild_mem hl)) ht

theorem entUnderAt_nil_of_listDir_none {allowed : Seg → Bool} {sh : Bool} {fs : FSEntry}
    {d : Seg} (h : listDir fs d = none) : entUnderAt allowed sh fs d = [] := by
  unfold entUnderAt
  unfold listDir at h
  rcases hf : fs.find d with _ | t
  · rfl
  · rw [hf] at h
    cases t with
    | file => rfl
    | other => rfl
    | dir cs => cases h

theorem entUnderAt_nil_of_not_dir {allowed : Seg → Bool} {sh : Bool} {fs : FSEntry}
    {d : Seg} (h : isDir fs d = false) : entUnderAt allowed sh fs d = [] := by
  unfold entUnderAt
  unfold isDir at h
  rcases hf : fs.find d with _ | t
  · rfl
  · rw [hf] at h
    cases t with
    | file => rfl
    | other => rfl
    | dir cs => cases h

theorem mem_dirReachChildren {allowed : Seg → Bool} {sh : Bool} :
    ∀ {cs : List (Name × FSEntry)} {d p : Seg},
    p ∈ dirReachChildren allowed sh cs d ↔
      ∃ c ∈ cs, ((sh || !hiddenName c.1) && allowed (d ++ [c.1])) = true ∧
        (p = d ++ [c.1] ∨ p ∈ dirReach allowed sh c.2 (d ++ [c.1])) := by
  intro cs
  induction cs with
  | nil =>
    intro d p
    constructor
    · intro h; cases h
    · rintro ⟨c, hc, _⟩; cases hc
  | cons c0 cs ih =>
    intro d p
    unfold dirReachChildren
    rw [List.mem_append]
    constructor
    · rintro (h | h)
      · split at h
        · rename_i hcond
          rcases List.mem_cons.mp h with he | he
          · exact ⟨c0, List.mem_cons_self _ _, hcond, Or.inl he⟩
          · exact ⟨c0, List.mem_cons_self _ _, hcond, Or.inr he⟩
        · cases h
      · rcases ih.mp h with ⟨c, hc, hcond, hor⟩
        exact ⟨c, List.mem_cons_of_mem _ hc, hcond, hor⟩
    · rintro ⟨c, hc, hcond, hor⟩
      cases List.mem_cons.mp hc with
      | inl he =>
        subst he
        left
        rw [if_pos hcond]
        cases hor with
        | inl h => exact h ▸ List.mem_cons_self _ _
        | inr h => exact List.mem_cons_of_mem _ h
      | inr he =>
        right
        exact ih.mpr ⟨c, he, hcond, hor⟩

theorem mem_entUnderAt_dir {allowed : Seg → Bool} {sh : Bool} {fs : FSEntry} {cur : Seg}
    {names : List Name} (hwf : fs.wf = true) (hl : listDir fs cur = some names) (p : Seg) :
    p ∈ entUnderAt allowed sh fs cur ↔
      ∃ n ∈ names, (sh || !hiddenName n) = true ∧ allowed (cur ++ [n]) = true ∧
        (p = cur ++ [n] ∨ p ∈ entUnderAt allowed sh fs (cur ++ [n])) := by
  unfold listDir at hl
  rcases hf : fs.find cur with _ | t
  · rw [hf] at hl; cases hl
  · rw [hf] at hl
    cases t with
    | file => cases hl
    | other => cases hl
    | dir cs =>
      injection hl with hl
      subst hl
      have hnd := (wf_dir (wf_find cur fs hwf hf)).1
      have hchild : ∀ (c : Name × FSEntry), c ∈ cs →
          entUnderAt allowed sh fs (cur ++ [c.1]) = dirReach allowed sh c.2 (cur ++ [c.1]) := by
        intro c hc
        have hm : (c.1, c.2) ∈ cs := by rcases c with ⟨cn, ct⟩; exact hc
        unfold entUnderAt
        rw [find_append [c.1] cur fs, hf]
        show (match FSEntry.find (.dir cs) [c.1] with
          | some t => dirReach allowed sh t (cur ++ [c.1])
          | none => []) = _
        have hfc : FSEntry.find (.dir cs) [c.1] = some c.2 := by
          rw [find_cons, lookupChild_of_mem hnd hm]
          exact find_nil c.2
        rw [hfc]
      have hbase : entUnderAt allowed sh fs cur = dirReachChildren allowed sh cs cur := by
        unfold entUnderAt
        rw [hf]
        rfl
      rw [hbase, mem_dirReachChildren]
      constructor
      · rintro ⟨c, hc, hcond, hor⟩
        rw [Bool.and_eq_true] at hcond
        refine ⟨c.1, List.mem_map.mpr ⟨c, hc, rfl⟩, hcond.1, hcond.2, ?_⟩
        cases hor with
        | inl h => exact Or.inl h
        | inr h => exact Or.inr (by rw [hchild c hc]; exact h)
      · rintro ⟨n, hn, hvis, hall, hor⟩
        rcases List.mem_map.mp hn with ⟨c, hc, hcn⟩
        subst hcn
        refine ⟨c, hc, by rw [Bool.and_eq_true]; exact ⟨hvis, hall⟩, ?_⟩
        cases hor with
        | inl h => exact Or.inl h
        | inr h => exact Or.inr (by rw [← hchild c hc]; exact h)

mutual

theorem dirReach_extends (allowed : Seg → Bool) (sh : Bool) :
    ∀ (t : FSEntry) (d p : Seg), p ∈ dirReach allowed sh t d → ∃ q, q ≠ [] ∧ p = d ++ q
  | .file, _, _, h => absurd h (by intro hc; cases hc)
  | .other, _, _, h => absurd h (by intro hc; cases hc)
  | .dir cs, d, p, h => dirReachChildren_extends allowed sh cs d p h

theorem dirReachChildren_extends (allowed : Seg → Bool) (sh : Bool) :
    ∀ (cs : List (Name × FSEntry)) (d p : Seg),
    p ∈ dirReachChildren allowed sh cs d → ∃ q, q ≠ [] ∧ p = d ++ q
  | [], _, _, h => absurd h (by intro hc; cases hc)
  | c :: cs, d, p, h => by
    rw [show dirReachChildren allowed sh (c :: cs) d =
      (if (sh || !hiddenName c.1) && allowed (d ++ [c.1])
        then (d ++ [c.1]) :: dirReach allowed sh c.2 (d ++ [c.1])
        else []) ++ dirReachChildren allowed sh cs d from rfl, List.mem_append] at h
    rcases h with h | h
    · split at h
      · rcases List.mem_cons.mp h with he | he
        · exact ⟨[c.1], by simp, by rw [he]⟩
        · rcases dirReach_extends allowed sh c.2 (d ++ [c.1]) p he with ⟨q, hq, hpq⟩
          exact ⟨c.1 :: q, by simp, by rw [hpq, List.append_assoc]; rfl⟩
      · cases h
    · exact dirReachChildren_extends allowed sh cs d p h

end

theorem entUnderAt_extends {allowed : Seg → Bool} {sh : Bool} {fs : FSEntry} {d p : Seg}
    (h : p ∈ entUnderAt allowed sh fs d) : ∃ q, q ≠ [] ∧ p = d ++ q := by
  unfold entUnderAt at h
  rcases hf : fs.find d with _ | t
  · rw [hf] at h; cases h
  · rw [hf] at h
    exact dirReach_extends allowed sh t d p h

theorem rootVisible_eq {sh : Bool} {fs : FSEntry} {names : List Name}
    (hl : listDir fs [] = some names) : rootVisible sh fs = visEntries sh names := by
  unfold rootVisible visEntries
  rw [hl]

theorem rootVisible_nil {sh : Bool} {fs : FSEntry} (hl : listDir fs [] = none) :
    rootVisible sh fs = [] := by
  unfold rootVisible
  rw [hl]

theorem rootVisible_nodup {sh : Bool} {fs : FSEntry} (hwf : fs.wf = true) :
    (rootVisible sh fs).Nodup := by
  unfold rootVisible
  rcases hl : listDir fs [] with _ | names
  · exact List.nodup_nil
  · unfold listDir at hl
    rcases hf : fs.find [] with _ | t
    · rw [hf] at hl; cases hl
    · rw [hf] at hl
      cases t with
      | file => cases hl
      | other => cases hl
      | dir cs =>
        injection hl with hl
        subst hl
        have hnd := (wf_dir (wf_find [] fs hwf hf)).1
        have h2 : (List.filter (fun n => sh || !hiddenName n) (cs.map Prod.fst)).Nodup :=
          List.Nodup.filter _ hnd
        exact ((List.perm_insertionSort nameRel _).nodup_iff).mpr h2

theorem mem_visEntries {sh : Bool} {names : List Name} {n : Name} :
    n ∈ visEntries sh names ↔ n ∈ names ∧ (sh || !hiddenName n) = true := by
  unfold visEntries sortNames
  rw [(List.perm_insertionSort nameRel _).mem_iff]
  exact List.mem_filter

theorem mem_emitOf {allowed : Seg → Bool} {cur : Seg} {entries : List Name} {p : Seg} :
    p ∈ emitOf allowed cur entries ↔
      ∃ n ∈ entries, allowed (cur ++ [n]) = true ∧ p = cur ++ [n] := by
  unfold emitOf
  rw [List.mem_map]
  constructor
  · rintro ⟨n, hn, hpn⟩
    rw [List.mem_filter] at hn
    exact ⟨n, hn.1, hn.2, hpn.symm⟩
  · rintro ⟨n, hn, ha, hpn⟩
    exact ⟨n, List.mem_filter.mpr ⟨hn, ha⟩, hpn.symm⟩

theorem mem_enqOf {fs : FSEntry} {allowed : Seg → Bool} {cur : Seg} {depth : Nat}
    {entries : List Name} {x : Seg × Nat} :
    x ∈ enqOf fs allowed cur depth entries ↔
      ∃ n ∈ entries, allowed (cur ++ [n]) = true ∧ isDir fs (cur ++ [n]) = true ∧
        x = (cur ++ [n], depth + 1) := by
  unfold enqOf
  rw [List.mem_map]
  constructor
  · rintro ⟨n, hn, hxn⟩
    simp only [List.mem_filter, Bool.and_eq_true] at hn
    exact ⟨n, hn.1, hn.2.1, hn.2.2, hxn.symm⟩
  · rintro ⟨n, hn, ha, hd, hxn⟩
    refine ⟨n, ?_, hxn.symm⟩
    simp only [List.mem_filter, Bool.and_eq_true]
    exact ⟨hn, ha, hd⟩

theorem mem_rootReach {allowed : Seg → Bool} {sh : Bool} {fs : FSEntry} {k : Nat} {p : Seg} :
    p ∈ rootReach allowed sh fs k ↔
      ∃ n ∈ (rootVisible sh fs).drop k, allowed [n] = true ∧
        (p = [n] ∨ p ∈ entUnderAt allowed sh fs [n]) := by
  unfold rootReach
  rw [List.mem_bind]
  constructor
  · rintro ⟨n, hn, hp⟩
    split at hp
    · rename_i ha
      rcases List.mem_cons.mp hp with he | he
      · exact ⟨n, hn, ha, Or.inl he⟩
      · exact ⟨n, hn, ha, Or.inr he⟩
    · cases hp
  · rintro ⟨n, hn, ha, hor⟩
    refine ⟨n, hn, ?_⟩
    rw [if_pos ha]
    cases hor with
    | inl h => exact h ▸ List.mem_cons_self _ _
    | inr h => exact List.mem_cons_of_mem _ h

theorem exists_mem_append {α : Type} {P : α → Prop} {l1 l2 : List α} :
    (∃ x ∈ l1 ++ l2, P x) ↔ (∃ x ∈ l1, P x) ∨ ∃ x ∈ l2, P x := by
  constructor
  · rintro ⟨x, hx, hp⟩
    rcases List.mem_append.mp hx with h | h
    · exact Or.inl ⟨x, h, hp⟩
    · exact Or.inr ⟨x, h, hp⟩
  · rintro (⟨x, hx, hp⟩ | ⟨x, hx, hp⟩)
    · exact ⟨x, List.mem_append.mpr (Or.inl hx), hp⟩
    · exact ⟨x, List.mem_append.mpr (Or.inr hx), hp⟩

theorem procEntries_cons (fs : FSEntry) (allowed : Seg → Bool) (maxLvl : Int)
    (tick : Nat → Bool) (cur : Seg) (depth : Nat) (n : Name) (rest : List Name)
    (queue : List (Seg × Nat)) (results : List Seg) :
    procEntries fs allowed false maxLvl (-1) (-1) tick cur depth (n :: rest) queue results =
      if allowed (cur ++ [n]) = true then
        procEntries fs allowed false maxLvl (-1) (-1) tick cur depth rest
          (if isDir fs (cur ++ [n]) = true ∧ (maxLvl < 0 ∨ (depth : Int) < maxLvl)
            then queue ++ [(cur ++ [n], depth + 1)] else queue)
          (results ++ [cur ++ [n]])
      else procEntries fs allowed false maxLvl (-1) (-1) tick cur depth rest queue results := by
  by_cases ha : allowed (cur ++ [n]) = true
  · rw [if_pos ha]
    simp only [procEntries]
    rw [ha, Bool.not_true, if_neg Bool.false_ne_true]
    rw [if_neg (fun hcon => Bool.false_ne_true hcon.2)]
    rw [if_neg (fun hcon => Bool.false_ne_true hcon.1)]
    rw [if_neg (fun hcon => absurd hcon.1 (by norm_num))]
    rw [if_neg (fun hcon => hcon.1 rfl)]
  · rw [if_neg ha]
    simp only [procEntries]
    rw [Bool.not_eq_true] at ha
    rw [ha, Bool.not_false, if_pos rfl]

theorem procEntries_nl (fs : FSEntry) (allowed : Seg → Bool) (tick : Nat → Bool)
    (cur : Seg) (depth : Nat) :
    ∀ (entries : List Name) (queue : List (Seg × Nat)) (results : List Seg),
    procEntries fs allowed false (-1) (-1) (-1) tick cur depth entries queue results =
      (queue ++ enqOf fs allowed cur depth entries,
        results ++ emitOf allowed cur entries, false, false) := by
  intro entries
  induction entries with
  | nil =>
    intro queue results
    show (queue, results, false, false) = _
    simp [enqOf, emitOf]
  | cons n rest ih =>
    intro queue results
    rw [procEntries_cons]
    by_cases ha : allowed (cur ++ [n]) = true
    · rw [if_pos ha]
      by_cases hd : isDir fs (cur ++ [n]) = true
      · rw [if_pos ⟨hd, Or.inl (by norm_num)⟩, ih]
        simp [enqOf, emitOf, List.filter_cons, ha, hd, List.append_assoc]
      · rw [if_neg (fun hcon => hd hcon.1), ih]
        rw [Bool.not_eq_true] at hd
        simp [enqOf, emitOf, List.filter_cons, ha, hd, List.append_assoc]
    · rw [if_neg ha, ih]
      rw [Bool.not_eq_true] at ha
      simp [enqOf, emitOf, List.filter_cons, ha]

theorem procEntries_depth0 (fs : FSEntry) (allowed : Seg → Bool) (tick : Nat → Bool)
    (cur : Seg) :
    ∀ (entries : List Name) (queue : List (Seg × Nat)) (results : List Seg),
    procEntries fs allowed false 0 (-1) (-1) tick cur 0 entries queue results =
      (queue, results ++ emitOf allowed cur entries, false, false) := by
  intro entries
  induction entries with
  | nil =>
    intro queue results
    show (queue, results, false, false) = _
    simp [emitOf]
  | cons n rest ih =>
    intro queue results
    rw [procEntries_cons]
    by_cases ha : allowed (cur ++ [n]) = true
    · rw [if_pos ha]
      rw [if_neg ?hno, ih]
      case hno =>
        rintro ⟨-, (h | h)⟩
        · exact absurd h (by norm_num)
        · exact absurd h (by norm_num)
      simp [emitOf, List.filter_cons, ha, List.append_assoc]
    · rw [if_neg ha, ih]
      rw [Bool.not_eq_true] at ha
      simp [emitOf, List.filter_cons, ha]

theorem walkLoop_emptyq (fs : FSEntry) (allowed : Seg → Bool) (sh fo : Bool) (maxLvl : Int)
    (bfs : Bool) (limit timeLimit : Int) (tick : Nat → Bool) (k fuel : Nat)
    (queue : List (Seg × Nat)) (results : List Seg) (hp : popQ bfs queue = none) :
    walkLoop fs allowed sh fo maxLvl bfs limit timeLimit tick k fuel queue results =
      some (results, false, false) := by
  conv_lhs => rw [walkLoop, hp]

theorem walkLoop_fuel0 (fs : FSEntry) (allowed : Seg → Bool) (sh fo : Bool) (maxLvl : Int)
    (bfs : Bool) (limit timeLimit : Int) (tick : Nat → Bool) (k : Nat)
    (queue : List (Seg × Nat)) (results : List Seg) (x : (Seg × Nat) × List (Seg × Nat))
    (hp : popQ bfs queue = some x) :
    walkLoop fs allowed sh fo maxLvl bfs limit timeLimit tick k 0 queue results = none := by
  rcases x with ⟨⟨cur, depth⟩, queue'⟩
  conv_lhs => rw [walkLoop, hp]

theorem walkLoop_succ (fs : FSEntry) (allowed : Seg → Bool) (sh fo : Bool) (maxLvl : Int)
    (bfs : Bool) (limit timeLimit : Int) (tick : Nat → Bool) (k fuel : Nat)
    (queue queue' : List (Seg × Nat)) (cur : Seg) (depth : Nat) (results : List Seg)
    (hp : popQ bfs queue = some ((cur, depth), queue')) :
    walkLoop fs allowed sh fo maxLvl bfs limit timeLimit tick k (fuel + 1) queue results =
      if maxLvl ≥ 0 ∧ (depth : Int) > maxLvl then
        walkLoop fs allowed sh fo maxLvl bfs limit timeLimit tick k fuel queue' results
      else
        match listDir fs cur with
        | none => walkLoop fs allowed sh fo maxLvl bfs limit timeLimit tick k fuel
            queue' results
        | some names =>
          match procEntries fs allowed fo maxLvl limit timeLimit tick cur depth
              (if cur = [] ∧ k > 0
                then (sortNames (names.filter (fun n => sh || !hiddenName n))).drop k
                else sortNames (names.filter (fun n => sh || !hiddenName n)))
              queue' results with
          | (queue2, results2, lim, tim) =>
            if lim = true ∨ tim = true then some (results2, lim, tim)
            else walkLoop fs allowed sh fo maxLvl bfs limit timeLimit tick k fuel
              queue2 results2 := by
  conv_lhs => rw [walkLoop, hp]

theorem walkLoop_iterNone (fs : FSEntry) (allowed : Seg → Bool) (sh fo : Bool)
    (maxLvl : Int) (bfs : Bool) (limit timeLimit : Int) (tick : Nat → Bool) (k fuel : Nat)
    (queue queue' : List (Seg × Nat)) (cur : Seg) (depth : Nat) (results : List Seg)
    (hp : popQ bfs queue = some ((cur, depth), queue'))
    (hskip : ¬(maxLvl ≥ 0 ∧ (depth : Int) > maxLvl)) (hld : listDir fs cur = none) :
    walkLoop fs allowed sh fo maxLvl bfs limit timeLimit tick k (fuel + 1) queue results =
      walkLoop fs allowed sh fo maxLvl bfs limit timeLimit tick k fuel queue' results := by
  rw [walkLoop_succ fs allowed sh fo maxLvl bfs limit timeLimit tick k fuel queue queue'
    cur depth results hp]
  rw [if_neg hskip, hld]

theorem walkLoop_iterE (fs : FSEntry) (allowed : Seg → Bool) (sh bfs : Bool)
    (tick : Nat → Bool) (k fuel : Nat) (queue queue' : List (Seg × Nat)) (cur : Seg)
    (depth : Nat) (results : List Seg) (names ents : List Name)
    (hp : popQ bfs queue = some ((cur, depth), queue'))
    (hld : listDir fs cur = some names)
    (hent : (if cur = [] ∧ k > 0 then (visEntries sh names).drop k
      else visEntries sh names) = ents) :
    walkLoop fs allowed sh false (-1) bfs (-1) (-1) tick k (fuel + 1) queue results =
      walkLoop fs allowed sh false (-1) bfs (-1) (-1) tick k fuel
        (queue' ++ enqOf fs allowed cur depth ents)
        (results ++ emitOf allowed cur ents) := by
  rw [walkLoop_succ fs allowed sh false (-1) bfs (-1) (-1) tick k fuel queue queue'
    cur depth results hp]
  rw [if_neg (fun hcon => absurd hcon.1 (by norm_num)), hld]
  show (match procEntries fs allowed false (-1) (-1) (-1) tick cur depth
      (if cur = [] ∧ k > 0
        then (sortNames (names.filter (fun n => sh || !hiddenName n))).drop k
        else sortNames (names.filter (fun n => sh || !hiddenName n)))
      queue' results with
    | (queue2, results2, lim, tim) =>
      if lim = true ∨ tim = true then some (results2, lim, tim)
      else walkLoop fs allowed sh false (-1) bfs (-1) (-1) tick k fuel
        queue2 results2) = _
  rw [show (if cur = [] ∧ k > 0
      then (sortNames (names.filter (fun n => sh || !hiddenName n))).drop k
      else sortNames (names.filter (fun n => sh || !hiddenName n))) = ents from hent]
  rw [procEntries_nl]
  rfl

theorem walkLoop_iter0 (fs : FSEntry) (allowed : Seg → Bool) (sh bfs : Bool)
    (tick : Nat → Bool) (fuel : Nat) (queue queue' : List (Seg × Nat)) (cur : Seg)
    (results : List Seg) (names : List Name)
    (hp : popQ bfs queue = some ((cur, 0), queue')) (hld : listDir fs cur = some names) :
    walkLoop fs allowed sh false 0 bfs (-1) (-1) tick 0 (fuel + 1) queue results =
      walkLoop fs allowed sh false 0 bfs (-1) (-1) tick 0 fuel queue'
        (results ++ emitOf allowed cur (visEntries sh names)) := by
  rw [walkLoop_succ fs allowed sh false 0 bfs (-1) (-1) tick 0 fuel queue queue'
    cur 0 results hp]
  rw [if_neg (fun hcon => absurd hcon.2 (by norm_num)), hld]
  show (match procEntries fs allowed false 0 (-1) (-1) tick cur 0
      (if cur = [] ∧ 0 > 0
        then (sortNames (names.filter (fun n => sh || !hiddenName n))).drop 0
        else sortNames (names.filter (fun n => sh || !hiddenName n)))
      queue' results with
    | (queue2, results2, lim, tim) =>
      if lim = true ∨ tim = true then some (results2, lim, tim)
      else walkLoop fs allowed sh false 0 bfs (-1) (-1) tick 0 fuel
        queue2 results2) = _
  rw [if_neg (fun hcon => Nat.lt_irrefl 0 hcon.2), procEntries_depth0]
  rfl

theorem layer_decompose {allowed : Seg → Bool} {sh : Bool} {fs : FSEntry} {cur : Seg}
    {names : List Name} (hwf : fs.wf = true) (hld : listDir fs cur = some names)
    (depth : Nat) (p : Seg) :
    (p ∈ emitOf allowed cur (visEntries sh names) ∨
      ∃ x ∈ enqOf fs allowed cur depth (visEntries sh names),
        p ∈ entUnderAt allowed sh fs x.1) ↔
      p ∈ entUnderAt allowed sh fs cur := by
  rw [mem_entUnderAt_dir hwf hld p]
  constructor
  · rintro (h | ⟨x, hx, hpx⟩)
    · rcases mem_emitOf.mp h with ⟨n, hn, ha, hpn⟩
      rcases mem_visEntries.mp hn with ⟨hn', hvis⟩
      exact ⟨n, hn', hvis, ha, Or.inl hpn⟩
    · rcases mem_enqOf.mp hx with ⟨n, hn, ha, hd, hxe⟩
      rcases mem_visEntries.mp hn with ⟨hn', hvis⟩
      have hpx' : p ∈ entUnderAt allowed sh fs (cur ++ [n]) := by rw [hxe] at hpx; exact hpx
      exact ⟨n, hn', hvis, ha, Or.inr hpx'⟩
  · rintro ⟨n, hn, hvis, ha, hor⟩
    cases hor with
    | inl h => exact Or.inl (mem_emitOf.mpr ⟨n, mem_visEntries.mpr ⟨hn, hvis⟩, ha, h⟩)
    | inr h =>
      cases hdi : isDir fs (cur ++ [n]) with
      | false =>
        rw [entUnderAt_nil_of_not_dir hdi] at h
        cases h
      | true =>
        exact Or.inr ⟨(cur ++ [n], depth + 1),
          mem_enqOf.mpr ⟨n, mem_visEntries.mpr ⟨hn, hvis⟩, ha, hdi, rfl⟩, h⟩

theorem walkLoop_inv (fs : FSEntry) (allowed : Seg → Bool) (sh bfs : Bool)
    (tick : Nat → Bool) (k : Nat) (hwf : fs.wf = true) :
    ∀ (fuel : Nat) (queue : List (Seg × Nat)) (results : List Seg),
    (∀ x ∈ queue, x.1 ≠ ([] : Seg)) →
    ∀ out : List Seg × Bool × Bool,
    walkLoop fs allowed sh false (-1) bfs (-1) (-1) tick k fuel queue results = some out →
    out.2.1 = false ∧ out.2.2 = false ∧
      ∀ p, (p ∈ out.1 ↔ p ∈ results ∨ ∃ x ∈ queue, p ∈ entUnderAt allowed sh fs x.1) := by
  intro fuel
  induction fuel with
  | zero =>
    intro queue results hq out hrun
    rcases hp : popQ bfs queue with _ | x
    · rw [walkLoop_emptyq fs allowed sh false (-1) bfs (-1) (-1) tick k 0 queue results hp]
        at hrun
      injection hrun with hrun
      subst hrun
      have hqe := popQ_nil_of_none hp
      subst hqe
      refine ⟨rfl, rfl, fun p => ?_⟩
      constructor
      · intro h
        exact Or.inl h
      · rintro (h | ⟨x, hx, -⟩)
        · exact h
        · cases hx
    · rw [walkLoop_fuel0 fs allowed sh false (-1) bfs (-1) (-1) tick k queue results x hp]
        at hrun
      cases hrun
  | succ fuel ih =>
    intro queue results hq out hrun
    rcases hp : popQ bfs queue with _ | x
    · rw [walkLoop_emptyq fs allowed sh false (-1) bfs (-1) (-1) tick k (fuel + 1) queue
        results hp] at hrun
      injection hrun with hrun
      subst hrun
      have hqe := popQ_nil_of_none hp
      subst hqe
      refine ⟨rfl, rfl, fun p => ?_⟩
      constructor
      · intro h
        exact Or.inl h
      · rintro (h | ⟨x, hx, -⟩)
        · exact h
        · cases hx
    · rcases x with ⟨⟨cur, depth⟩, queue'⟩
      have hmem := popQ_mem hp
      have hq' : ∀ x ∈ queue', x.1 ≠ ([] : Seg) := fun x hx => hq x ((hmem x).mpr (Or.inr hx))
      have hcur : cur ≠ ([] : Seg) := hq (cur, depth) ((hmem _).mpr (Or.inl rfl))
      rcases hld : listDir fs cur with _ | names
      · rw [walkLoop_iterNone fs allowed sh false (-1) bfs (-1) (-1) tick k fuel queue queue'
          cur depth results hp (fun hcon => absurd hcon.1 (by norm_num)) hld] at hrun
        obtain ⟨h1, h2, h3⟩ := ih queue' results hq' out hrun
        refine ⟨h1, h2, fun p => ?_⟩
        rw [h3 p]
        constructor
        · rintro (h | ⟨x, hx, hpx⟩)
          · exact Or.inl h
          · exact Or.inr ⟨x, (hmem x).mpr (Or.inr hx), hpx⟩
        · rintro (h | ⟨x, hx, hpx⟩)
          · exact Or.inl h
          · rcases (hmem x).mp hx with he | he
            · have hpx' : p ∈ entUnderAt allowed sh fs cur := by rw [he] at hpx; exact hpx
              rw [entUnderAt_nil_of_listDir_none hld] at hpx'
              cases hpx'
            · exact Or.inr ⟨x, he, hpx⟩
      · rw [walkLoop_iterE fs allowed sh bfs tick k fuel queue queue' cur depth results
          names (visEntries sh names) hp hld (if_neg (fun hcon => hcur hcon.1))] at hrun
        have hqn : ∀ x ∈ queue' ++ enqOf fs allowed cur depth (visEntries sh names),
            x.1 ≠ ([] : Seg) := by
          intro x hx
          rcases List.mem_append.mp hx with h | h
          · exact hq' x h
          · rcases mem_enqOf.mp h with ⟨n, -, -, -, hxe⟩
            rw [hxe]
            simp
        obtain ⟨h1, h2, h3⟩ := ih _ _ hqn out hrun
        refine ⟨h1, h2, fun p => ?_⟩
        have hqiff : (∃ x ∈ queue, p ∈ entUnderAt allowed sh fs x.1) ↔
            (p ∈ entUnderAt allowed sh fs cur ∨
              ∃ x ∈ queue', p ∈ entUnderAt allowed sh fs x.1) := by
          constructor
          · rintro ⟨x, hx, hpx⟩
            rcases (hmem x).mp hx with he | he
            · refine Or.inl ?_
              rw [he] at hpx
              exact hpx
            · exact Or.inr ⟨x, he, hpx⟩
          · rintro (hp' | ⟨x, hx, hpx⟩)
            · exact ⟨(cur, depth), (hmem _).mpr (Or.inl rfl), hp'⟩
            · exact ⟨x, (hmem x).mpr (Or.inr hx), hpx⟩
        rw [h3 p, exists_mem_append, List.mem_append, hqiff,
          ← layer_decompose hwf hld depth p]
        constructor
        · rintro ((h | h) | (h | h))
          · exact Or.inl h
          · exact Or.inr (Or.inl (Or.inl h))
          · exact Or.inr (Or.inr h)
          · exact Or.inr (Or.inl (Or.inr h))
        · rintro (h | ((h | h) | h))
          · exact Or.inl (Or.inl h)
          · exact Or.inl (Or.inr h)
          · exact Or.inr (Or.inr h)
          · exact Or.inr (Or.inl h)

theorem root_layer {allowed : Seg → Bool} {sh : Bool} {fs : FSEntry} (ents : List Name)
    (p : Seg) :
    (p ∈ emitOf allowed ([] : Seg) ents ∨
      ∃ x ∈ enqOf fs allowed ([] : Seg) 0 ents, p ∈ entUnderAt allowed sh fs x.1) ↔
      ∃ n ∈ ents, allowed [n] = true ∧ (p = [n] ∨ p ∈ entUnderAt allowed sh fs [n]) := by
  constructor
  · rintro (h | ⟨x, hx, hpx⟩)
    · rcases mem_emitOf.mp h with ⟨n, hn, ha, hpn⟩
      exact ⟨n, hn, ha, Or.inl hpn⟩
    · rcases mem_enqOf.mp hx with ⟨n, hn, ha, hd, hxe⟩
      have hpx' : p ∈ entUnderAt allowed sh fs ([n] : Seg) := by rw [hxe] at hpx; exact hpx
      exact ⟨n, hn, ha, Or.inr hpx'⟩
  · rintro ⟨n, hn, ha, hor⟩
    cases hor with
    | inl h => exact Or.inl (mem_emitOf.mpr ⟨n, hn, ha, h⟩)
    | inr h =>
      cases hdi : isDir fs ([n] : Seg) with
      | false =>
        rw [entUnderAt_nil_of_not_dir hdi] at h
        cases h
      | true =>
        exact Or.inr ⟨(([] : Seg) ++ [n], 0 + 1), mem_enqOf.mpr ⟨n, hn, ha, hdi, rfl⟩, h⟩

theorem listFilePaths_spec (fs : FSEntry) (allowed : Seg → Bool) (sh bfs : Bool)
    (tick : Nat → Bool) (k fuel : Nat) (out : List Seg × Bool × Bool) (hwf : fs.wf = true)
    (hrun : listFilePaths fs allowed sh false (-1) bfs (-1) (-1) tick k fuel = some out) :
    out.2.1 = false ∧ out.2.2 = false ∧
      ∀ p, (p ∈ out.1 ↔ p ∈ rootReach allowed sh fs k) := by
  unfold listFilePaths at hrun
  rcases hw : walkLoop fs allowed sh false (-1) bfs (-1) (-1) tick k fuel [([], 0)] []
    with _ | res3
  · rw [hw] at hrun
    exact Option.noConfusion hrun
  · rcases res3 with ⟨res, lim, tim⟩
    rw [hw] at hrun
    have hrun' : some (sortSegs res, lim, tim) = some out := hrun
    injection hrun' with hout
    subst hout
    cases fuel with
    | zero =>
      rw [walkLoop_fuel0 fs allowed sh false (-1) bfs (-1) (-1) tick k [([], 0)] []
        ((([] : Seg), 0), ([] : List (Seg × Nat))) (popQ_singleton bfs (([] : Seg), 0))] at hw
      exact Option.noConfusion hw
    | succ fuel =>
      rcases hld : listDir fs ([] : Seg) with _ | names
      · rw [walkLoop_iterNone fs allowed sh false (-1) bfs (-1) (-1) tick k fuel [([], 0)]
          [] ([] : Seg) 0 [] (popQ_singleton bfs (([] : Seg), 0))
          (fun hcon => absurd hcon.1 (by norm_num)) hld] at hw
        rw [walkLoop_emptyq fs allowed sh false (-1) bfs (-1) (-1) tick k fuel [] [] rfl]
          at hw
        injection hw with hw
        injection hw with h1 hw
        injection hw with h2 h3
        subst h1
        subst h2
        subst h3
        refine ⟨rfl, rfl, fun p => ?_⟩
        have hrr : rootReach allowed sh fs k = [] := by
          unfold rootReach
          rw [rootVisible_nil hld, List.drop_nil]
          rfl
        rw [hrr]
        constructor
        · intro hp
          cases hp
        · intro hp
          cases hp
      · have hent : (if ([] : Seg) = [] ∧ k > 0 then (visEntries sh names).drop k
            else visEntries sh names) = (visEntries sh names).drop k := by
          by_cases hk : k > 0
          · rw [if_pos ⟨rfl, hk⟩]
          · rw [if_neg (fun hcon => hk hcon.2)]
            rw [Nat.eq_zero_of_not_pos hk, List.drop_zero]
        rw [walkLoop_iterE fs allowed sh bfs tick k fuel [([], 0)] [] ([] : Seg) 0 []
          names ((visEntries sh names).drop k) (popQ_singleton bfs (([] : Seg), 0)) hld
          hent] at hw
        rw [List.nil_append, List.nil_append] at hw
        have hqn : ∀ x ∈ enqOf fs allowed ([] : Seg) 0 ((visEntries sh names).drop k),
            x.1 ≠ ([] : Seg) := by
          intro x hx
          rcases mem_enqOf.mp hx with ⟨n, -, -, -, hxe⟩
          rw [hxe]
          simp
        obtain ⟨h1, h2, h3⟩ := walkLoop_inv fs allowed sh bfs tick k hwf fuel
          (enqOf fs allowed ([] : Seg) 0 ((visEntries sh names).drop k))
          (emitOf allowed ([] : Seg) ((visEntries sh names).drop k)) hqn (res, lim, tim) hw
        refine ⟨h1, h2, fun p => ?_⟩
        have hmemS : p ∈ (sortSegs res, lim, tim).1 ↔ p ∈ res :=
          (List.perm_insertionSort segRel res).mem_iff
        have h3' : p ∈ res ↔
            p ∈ emitOf allowed ([] : Seg) ((visEntries sh names).drop k) ∨
              ∃ x ∈ enqOf fs allowed ([] : Seg) 0 ((visEntries sh names).drop k),
                p ∈ entUnderAt allowed sh fs x.1 := h3 p
        rw [hmemS, h3', root_layer ((visEntries sh names).drop k) p, mem_rootReach,
          rootVisible_eq hld]

theorem listFilePaths_depth0 (fs : FSEntry) (allowed : Seg → Bool) (sh bfs : Bool)
    (tick : Nat → Bool) (fuel : Nat) (out : List Seg × Bool × Bool)
    (hrun : listFilePaths fs allowed sh false 0 bfs (-1) (-1) tick 0 fuel = some out) :
    ∀ p, p ∈ out.1 ↔ ∃ n ∈ rootVisible sh fs, allowed [n] = true ∧ p = [n] := by
  unfold listFilePaths at hrun
  rcases hw : walkLoop fs allowed sh false 0 bfs (-1) (-1) tick 0 fuel [([], 0)] []
    with _ | res3
  · rw [hw] at hrun
    exact Option.noConfusion hrun
  · rcases res3 with ⟨res, lim, tim⟩
    rw [hw] at hrun
    have hrun' : some (sortSegs res, lim, tim) = some out := hrun
    injection hrun' with hout
    subst hout
    cases fuel with
    | zero =>
      rw [walkLoop_fuel0 fs allowed sh false 0 bfs (-1) (-1) tick 0 [([], 0)] []
        ((([] : Seg), 0), ([] : List (Seg × Nat))) (popQ_singleton bfs (([] : Seg), 0))] at hw
      exact Option.noConfusion hw
    | succ fuel =>
      rcases hld : listDir fs ([] : Seg) with _ | names
      · rw [walkLoop_iterNone fs allowed sh false 0 bfs (-1) (-1) tick 0 fuel [([], 0)] []
          ([] : Seg) 0 [] (popQ_singleton bfs (([] : Seg), 0))
          (fun hcon => absurd hcon.2 (by norm_num)) hld] at hw
        rw [walkLoop_emptyq fs allowed sh false 0 bfs (-1) (-1) tick 0 fuel [] [] rfl] at hw
        injection hw with hw
        injection hw with h1 hw
        injection hw with h2 h3
        subst h1
        subst h2
        subst h3
        intro p
        constructor
        · intro hp
          cases hp
        · rintro ⟨n, hn, -, -⟩
          rw [rootVisible_nil hld] at hn
          cases hn
      · rw [walkLoop_iter0 fs allowed sh bfs tick fuel [([], 0)] [] ([] : Seg) [] names
          (popQ_singleton bfs (([] : Seg), 0)) hld] at hw
        rw [walkLoop_emptyq fs allowed sh false 0 bfs (-1) (-1) tick 0 fuel [] _ rfl] at hw
        injection hw with hw
        injection hw with h1 hw
        injection hw with h2 h3
        subst h1
        subst h2
        subst h3
        intro p
        have hmemS : p ∈ (sortSegs (([] : List Seg) ++
            emitOf allowed ([] : Seg) (visEntries sh names)), false, false).1 ↔
            p ∈ ([] : List Seg) ++ emitOf allowed ([] : Seg) (visEntries sh names) :=
          (List.perm_insertionSort segRel _).mem_iff
        rw [hmemS, List.nil_append, mem_emitOf, rootVisible_eq hld]
        simp only [List.nil_append]

/-- C7: in a terminating unrestricted run of `list_file_paths` with `start_from = k > 0`,
the output is exactly `rootReach k`: the walk of the sorted visible root entries from
index `k` on, where each kept root entry's subtree is walked in full by `entUnderAt`
(so the skip is applied only at the traversal root and never at deeper levels, and it
is applied before any child is enqueued); consequently no skipped root entry — one of
the first `k` sorted visible names — appears in the results, nor does any path below
one (the skipped subtrees are never descended into). -/
theorem C7_start_from_skips_root_only (fs : FSEntry) (allowed : Seg → Bool) (sh bfs : Bool)
    (tick : Nat → Bool) (k fuel : Nat) (out : List Seg × Bool × Bool)
    (hwf : fs.wf = true) (hk : 0 < k)
    (hrun : listFilePaths fs allowed sh false (-1) bfs (-1) (-1) tick k fuel = some out) :
    (∀ p, p ∈ out.1 ↔ p ∈ rootReach allowed sh fs k) ∧
    (∀ e ∈ (rootVisible sh fs).take k, ∀ p ∈ out.1, ¬ ([e] <+: p)) := by
  obtain ⟨-, -, h3⟩ := listFilePaths_spec fs allowed sh bfs tick k fuel out hwf hrun
  refine ⟨h3, ?_⟩
  intro e he p hp hpre
  rw [h3 p, mem_rootReach] at hp
  rcases hp with ⟨n, hn, -, hor⟩
  have hhead : p.head? = some n := by
    cases hor with
    | inl h => rw [h]; rfl
    | inr h =>
      rcases entUnderAt_extends h with ⟨q, -, hpq⟩
      rw [hpq]
      rfl
  have hhead' : p.head? = some e := by
    rcases hpre with ⟨r, hr⟩
    rw [← hr]
    rfl
  have hen : e = n := by
    rw [hhead] at hhead'
    injection hhead' with h
    exact h.symm
  subst hen
  have hnd := @rootVisible_nodup sh fs hwf
  rw [← List.take_append_drop k (rootVisible sh fs), List.nodup_append] at hnd
  exact hnd.2.2 he hn

/-- Witness for C7: on the witness tree with `start_from = 1`, the run returns
`b`, `c` and `c/y.txt` — exactly `rootReach 1` — and the skipped first sorted root
entry `a` heads no output path (in particular `a/x.txt` is absent: the skipped
subtree was never descended into). -/
theorem C7_start_from_skips_root_only_witness :
    (∀ p, p ∈ (([[str "b"], [str "c"], [str "c", str "y.txt"]], false, false) :
        List Seg × Bool × Bool).1 ↔ p ∈ rootReach (fun _ => true) false wTree 1) ∧
    (∀ e ∈ (rootVisible false wTree).take 1,
      ∀ p ∈ (([[str "b"], [str "c"], [str "c", str "y.txt"]], false, false) :
        List Seg × Bool × Bool).1, ¬ ([e] <+: p)) :=
  C7_start_from_skips_root_only wTree (fun _ => true) false true (fun _ => false) 1 10
    ([[str "b"], [str "c"], [str "c", str "y.txt"]], false, false)
    (by decide) (by decide) (by decide)

/-- C8: for a terminating run of `list_file_paths` on a well-formed tree with no count
or time budget, `max_depth = 0` yields exactly the allowed visible immediate children
`[n]` of the root — every output path has one component, so nothing deeper is
returned — and `max_depth = -1` yields exactly `rootReach 0`: every reachable allowed
entry at any depth. -/
theorem C8_list_depth_bounds (fs : FSEntry) (allowed : Seg → Bool) (sh bfs0 bfs1 : Bool)
    (tick0 tick1 : Nat → Bool) (fuel0 fuel1 : Nat) (out0 out1 : List Seg × Bool × Bool)
    (hwf : fs.wf = true)
    (hrun0 : listFilePaths fs allowed sh false 0 bfs0 (-1) (-1) tick0 0 fuel0 = some out0)
    (hrun1 : listFilePaths fs allowed sh false (-1) bfs1 (-1) (-1) tick1 0 fuel1
      = some out1) :
    (∀ p, p ∈ out0.1 ↔ ∃ n ∈ rootVisible sh fs, allowed [n] = true ∧ p = [n]) ∧
    (∀ p, p ∈ out1.1 ↔ p ∈ rootReach allowed sh fs 0) :=
  ⟨listFilePaths_depth0 fs allowed sh bfs0 tick0 fuel0 out0 hrun0,
   (listFilePaths_spec fs allowed sh bfs1 tick1 0 fuel1 out1 hwf hrun1).2.2⟩

/-- Witness for C8: on the witness tree, `max_depth = 0` returns exactly the three
root children `a`, `b`, `c`, while `max_depth = -1` additionally returns the nested
`a/x.txt` and `c/y.txt`. -/
theorem C8_list_depth_bounds_witness :
    (∀ p, p ∈ (([[str "a"], [str "b"], [str "c"]], false, false) :
        List Seg × Bool × Bool).1 ↔
      ∃ n ∈ rootVisible false wTree, (fun _ : Seg => true) [n] = true ∧ p = [n]) ∧
    (∀ p, p ∈ (([[str "a"], [str "a", str "x.txt"], [str "b"], [str "c"],
        [str "c", str "y.txt"]], false, false) : List Seg × Bool × Bool).1 ↔
      p ∈ rootReach (fun _ => true) false wTree 0) :=
  C8_list_depth_bounds wTree (fun _ => true) false true true (fun _ => false)
    (fun _ => false) 10 10 ([[str "a"], [str "b"], [str "c"]], false, false)
    ([[str "a"], [str "a", str "x.txt"], [str "b"], [str "c"], [str "c", str "y.txt"]],
      false, false)
    (by decide) (by decide) (by decide)

end Walk

/-- Witness for C1: on the concrete filesystem, resolving `/r/a.txt` succeeds and the
theorem's conclusions evaluate as stated. -/
theorem C1_resolve_containment_witness :
    resolvePathE wOS wTool true (str "/r/a.txt") = .ok (some (str "/r/a.txt")) ∧
    ((∃ c, str "/r/a.txt" = wOS.resolve c) ∧ wOS.resolve (str "/r/a.txt") = str "/r/a.txt" ∧
      (∃ root ∈ wTool.allowed_paths,
        rstripSeps root ++ ['/'] <+: rstripSeps (str "/r/a.txt") ++ ['/']) ∧
      (∀ ex ∈ wTool.exclude_paths,
        ¬ (rstripSeps ex ++ ['/'] <+: rstripSeps (str "/r/a.txt") ++ ['/']))) :=
  ⟨rfl, C1_resolve_containment wOS [str "/r"] [str "/r/sec"] true true
    (str "/r/a.txt") (str "/r/a.txt") (fun _ => rfl) rfl⟩

end FSTool
